import Mathlib

/-!
Verification development for the hpsint grain tracker
(`src/include/pf-applications/grain_tracker/`).

The C++ code is dimension- and scalar-generic (`template <int dim, typename
Number>`); the embedding instantiates it at `dim = 1` with exact rational
scalars, so the Euclidean distance between two cell/segment centers is
`|x - y|` and every geometric comparison of the source is computable.
`double` accumulators initialised with `std::numeric_limits<double>::max()`
are modelled by `WithTop ℚ` (with `⊤` for the sentinel).  MPI collectives
are modelled synchronously: an all-reduce hands the reduced value to every
rank, a rooted reduce hands it to rank 0 only, and the consensus rounds of
the stitching loop become one global step function applied to the joint
state, which is exact because every message of a round is computed from the
state at the beginning of that round.

Classes `Segment`, `RemapGraph`, `Remapping` and `PeriodicityGraph` live in
headers that are not part of `src/` (`segment.h`, `remap_graph.h`,
`remapping.h`, `periodicity_graph.h`); where a definition depends on them it
is modelled from the spec and marked as such in its doc comment.
-/

namespace GrainTracker

/-- Modelled from the spec (segment.h is not in src/): a `Segment` is the
sphere approximation of one connected component, "center (point), radius
(scalar)"; 1-D instantiation with rational coordinates. -/
structure Segment where
  center : ℚ
  radius : ℚ
deriving DecidableEq

/-- The `Grain` class of grain.h, restricted to the fields the tracker
algorithms read: ids, current/previous order parameter, segment list,
`max_radius` and the cached distance to the nearest neighbor
(`std::numeric_limits<double>::max()` initialised, hence `WithTop ℚ`). -/
structure Grain where
  grain_id : ℕ
  order_parameter_id : ℕ
  old_order_parameter_id : ℕ
  segments : List Segment
  max_radius : ℚ
  distance_to_nearest_neighbor : WithTop ℚ
deriving DecidableEq

instance : Inhabited Grain := ⟨⟨0, 0, 0, [], 0, ⊤⟩⟩

/-- Modelled from the spec (segment.h is not in src/): `Segment::distance`
for the default spherical representation is the "spherical lower-bound
distance", i.e. the gap between the two bounding spheres:
center distance minus both radii (`distance_between_spheres`). -/
def Segment.distance (s t : Segment) : ℚ :=
  |s.center - t.center| - s.radius - t.radius

/-- Grain::distance (grain.h): minimum of `Segment::distance` over all
segment pairs, folded from `std::numeric_limits<double>::max()` (= `⊤`).
For spherical segments this coincides with `Grain::distance_lower_bound`. -/
def Grain.distance (a b : Grain) : WithTop ℚ :=
  a.segments.foldl
    (fun acc s =>
      b.segments.foldl (fun acc2 t => min acc2 ((s.distance t : ℚ) : WithTop ℚ)) acc)
    ⊤

/-- Grain::transfer_buffer (grain.h): `max(0.0, distance_to_nearest_neighbor / 2.0)`. -/
def Grain.transfer_buffer (g : Grain) : WithTop ℚ :=
  g.distance_to_nearest_neighbor.map (fun d => max 0 (d / 2))

/-! ### Grain matcher: `Tracker::track`, tracker.h lines 69-163 -/

/-- The fatal outcomes of the matching part of `Tracker::track`.
`emptyOldMap` models the undefined dereference `old_grains.rbegin()->first`
on an empty map (tracker.h line 82); the other two are the
`ExcGrainsInconsistency` throws of lines 133 and 142. -/
inductive TrackErr where
  | emptyOldMap
  | unmatched
  | opMismatch
deriving DecidableEq

/-- Lookup in a `std::map<unsigned int, Grain>` modelled as an association
list ordered by key (`at` never fails on the keys the algorithm passes;
out-of-map keys return the default grain). -/
def mapAt (m : List (ℕ × Grain)) (k : ℕ) : Grain :=
  ((m.find? (fun p => p.1 = k)).map Prod.snd).getD default

/-- Insertion into the ordered map as done by `std::map::emplace`: the entry
is inserted at its key position, and an existing key is left unchanged. -/
def mapEmplace (k : ℕ) (g : Grain) : List (ℕ × Grain) → List (ℕ × Grain)
  | [] => [(k, g)]
  | (k2, g2) :: rest =>
    if k < k2 then (k, g) :: (k2, g2) :: rest
    else if k = k2 then (k2, g2) :: rest
    else (k2, g2) :: mapEmplace k g rest

/-- The `grains.at(new_grain_id).set_grain_id(new_grain_id)` call of
tracker.h line 162. -/
def mapSetGrainId (k : ℕ) (m : List (ℕ × Grain)) : List (ℕ × Grain) :=
  m.map (fun p => if p.1 = k then (p.1, { p.2 with grain_id := k }) else p)

/-- The numberer for new grains, `old_grains.rbegin()->first + 1`
(tracker.h line 82): the map is ordered by key, so `rbegin` is the last
entry; on an empty map the dereference is undefined (`none`). -/
def nextGrainNumberer (m : List (ℕ × Grain)) : Option ℕ :=
  m.getLast?.map (fun p => p.1 + 1)

/-- The inner candidate search of `Tracker::track` (tracker.h lines 99-121):
scan every pair of a new segment and a segment of a candidate old grain;
whenever the center distance is below the new segment's radius and below the
running minimum, remember the distance and the old grain's id.  The
accumulator starts at (`std::numeric_limits<double>::max()`, invalid). -/
def findClosest (oldAt : ℕ → Grain) (cands : List ℕ) (segs : List Segment) :
    WithTop ℚ × Option ℕ :=
  segs.foldl
    (fun best ns =>
      cands.foldl
        (fun best2 oid =>
          ((oldAt oid).segments).foldl
            (fun best3 os =>
              let d : ℚ := |ns.center - os.center|
              if d < ns.radius ∧ ((d : ℚ) : WithTop ℚ) < best3.1 then
                (((d : ℚ) : WithTop ℚ), some (oldAt oid).grain_id)
              else best3)
            best2)
        best)
    (⊤, none)

/-- One pass of the matching loop of `Tracker::track` (lines 92-163) over
the list of freshly detected grains.  The state is the `grains` map being
built, the shrinking candidate set, the new-grain numberer, and a log of the
matched old grain ids (in match order).  A thrown `ExcGrainsInconsistency`
leaves the partially built state in place, as C++ exceptions do. -/
def trackLoop (allowNew : Bool) (oldMap : List (ℕ × Grain)) :
    List Grain → List (ℕ × Grain) × List ℕ × ℕ × List ℕ →
    Except TrackErr Unit × (List (ℕ × Grain) × List ℕ × ℕ × List ℕ)
  | [], st => (Except.ok (), st)
  | ng :: rest, (gm, cands, num, matched) =>
    match (findClosest (mapAt oldMap) cands ng.segments).2 with
    | none =>
      if allowNew then
        trackLoop allowNew oldMap rest
          (mapSetGrainId num (mapEmplace num ng gm), cands, num + 1, matched)
      else (Except.error TrackErr.unmatched, (gm, cands, num, matched))
    | some nid =>
      if (mapAt oldMap nid).order_parameter_id = ng.order_parameter_id then
        trackLoop allowNew oldMap rest
          (mapSetGrainId nid (mapEmplace nid ng gm), cands.erase nid, num, matched ++ [nid])
      else (Except.error TrackErr.opMismatch, (gm, cands, num, matched))

/-- Tracker state: the two persistent maps of tracker.h. -/
structure TrackerState where
  grains : List (ℕ × Grain)
  old_grains : List (ℕ × Grain)
deriving DecidableEq

/-- The matching part of `Tracker::track` (tracker.h lines 69-163): copy
`grains` into `old_grains` and clear `grains`, compute the new-grain
numberer from the (already overwritten) `old_grains`, then run the matching
loop over the detected grains.  The updated state is returned alongside the
outcome because a C++ exception propagates while leaving the mutated member
maps behind. -/
def track (allowNew : Bool) (newGrains : List Grain) (st : TrackerState) :
    Except TrackErr Unit × TrackerState :=
  match nextGrainNumberer st.grains with
  | none => (Except.error TrackErr.emptyOldMap, { grains := [], old_grains := st.grains })
  | some num0 =>
    let r := trackLoop allowNew st.grains newGrains ([], st.grains.map Prod.fst, num0, [])
    (r.1, { grains := r.2.1, old_grains := st.grains })

/-! ### Collision resolver: `Tracker::reassign_grains`, tracker.h lines 1156-1328 -/

/-- The fatal outcomes of `Tracker::reassign_grains`: `capacity` is the
`AssertThrow(n_colors <= max_order_parameters_num)` of line 1241
("Maximum number of order parameters exceeded!"), `numbering` the
`AssertThrow(mismatch >= 0)` of line 1288, and `emptyActive` models the
undefined `*active_order_parameters.rbegin()` when the grain map is empty. -/
inductive ReassignErr where
  | capacity
  | numbering
  | emptyActive
deriving DecidableEq

/-- The proximity test of tracker.h lines 1191-1208: the minimum distance
between the two grains is below the sum of the two buffer distances
(`buffer_distance_ratio * max_radius` each).  Detected pairs become edges of
the sparsity pattern handed to the graph coloring. -/
def closeGrains (coeff : ℚ) (a b : Grain) : Prop :=
  a.distance b < ((coeff * a.max_radius + coeff * b.max_radius : ℚ) : WithTop ℚ)

instance (coeff : ℚ) (a b : Grain) : Decidable (closeGrains coeff a b) := by
  unfold closeGrains; infer_instance

/-- The `overlap_detected` flag of tracker.h lines 1180-1230: forced
reassignment, or some pair of distinct grains that is too close and
currently shares an order parameter. -/
def overlapDetected (coeff : ℚ) (force : Bool) (m : List (ℕ × Grain)) : Bool :=
  force ||
    m.any (fun p =>
      m.any (fun q =>
        decide (q.1 ≠ p.1) && decide (closeGrains coeff p.2 q.2) &&
          decide (q.2.order_parameter_id = p.2.order_parameter_id)))

/-- Applying the coloring result (tracker.h lines 1245-1255): grain number
`i` in map-iteration order gets order parameter `color_indices[i] - 1`,
where `grains_to_sparsity` numbers the keys in iteration order. -/
def applyColoring (coloring : ℕ → ℕ) (m : List (ℕ × Grain)) : List (ℕ × Grain) :=
  m.enum.map (fun p => (p.2.1, { p.2.2 with order_parameter_id := coloring p.1 - 1 }))

/-- The neighbor pass of tracker.h lines 1263-1278: for every other grain
sharing the current or the previous order parameter, shrink the cached
distance to the nearest neighbor by `Grain::distance_lower_bound` (which for
spherical segments is `Grain.distance`), as `Grain::add_neighbor` does. -/
def updateNeighbors (m : List (ℕ × Grain)) : List (ℕ × Grain) :=
  m.map (fun p =>
    (p.1,
      { p.2 with
        distance_to_nearest_neighbor :=
          m.foldl
            (fun acc q =>
              if q.2.grain_id ≠ p.2.grain_id ∧
                  (q.2.order_parameter_id = p.2.order_parameter_id ∨
                    q.2.old_order_parameter_id = p.2.old_order_parameter_id) then
                min acc (p.2.distance q.2)
              else acc)
            p.2.distance_to_nearest_neighbor }))

/-- The set of active order parameters (`build_active_order_parameter_ids`),
as the sorted deduplicated list underlying the `std::set`. -/
def activeOps (m : List (ℕ × Grain)) : List ℕ :=
  ((m.map (fun p => p.2.order_parameter_id)).toFinset).sort (· ≤ ·)

/-- The dangling-order-parameter compaction of tracker.h lines 1284-1323:
if the largest active order parameter exceeds the count minus one, each
active order parameter is shifted down by its offset (its value minus its
position in the sorted active set). -/
def compactOps (m : List (ℕ × Grain)) : List (ℕ × Grain) :=
  let act := activeOps m
  let offs : ℕ → ℕ := fun op => op - act.indexOf op
  if act.getLast?.getD 0 > act.length - 1 then
    m.map (fun p =>
      if offs p.2.order_parameter_id > 0 then
        (p.1,
          { p.2 with
            order_parameter_id :=
              p.2.order_parameter_id - offs p.2.order_parameter_id })
      else p)
  else m

/-- The per-order-parameter effect of `compactOps`: the map each active
order parameter undergoes during the dangling-id compaction. -/
def cmapOps (mm : List (ℕ × Grain)) (op : ℕ) : ℕ :=
  let act := activeOps mm
  if act.getLast?.getD 0 > act.length - 1 then
    if op - act.indexOf op > 0 then op - (op - act.indexOf op) else op
  else op

/-- `Tracker::reassign_grains` (tracker.h lines 1156-1328).  The graph
coloring itself is the external deal.II routine
`SparsityTools::color_sparsity_pattern`; it enters as an oracle `coloring`
(colors of the sparsity rows, 1-based) together with the color count
`nColors` it reports.  Steps: detect overlaps, color if overlap was
detected (fatal if more colors than `maxN` are needed), rebuild the
neighbor caches, and compact the active order parameter numbering. -/
def reassign_grains (coeff : ℚ) (maxN : ℕ) (force : Bool)
    (coloring : ℕ → ℕ) (nColors : ℕ) (m : List (ℕ × Grain)) :
    Except ReassignErr (List (ℕ × Grain)) :=
  let od := overlapDetected coeff force m
  if od ∧ maxN < nColors then Except.error ReassignErr.capacity
  else
    let m1 := if od then applyColoring coloring m else m
    let m2 := updateNeighbors m1
    let act := activeOps m2
    match act.getLast? with
    | none => Except.error ReassignErr.emptyActive
    | some mx =>
      if mx + 1 < act.length then Except.error ReassignErr.numbering
      else Except.ok (compactOps m2)

/-- Witness data for the coloring-validity claim: unit grain at center 0,
initially on order parameter 0. -/
def wC2gA : Grain := ⟨0, 0, 0, [⟨0, 1⟩], 1, ⊤⟩

/-- Witness data: unit grain at center 1, initially also on order
parameter 0 (so its buffer overlaps `wC2gA`). -/
def wC2gB : Grain := ⟨1, 0, 0, [⟨1, 1⟩], 1, ⊤⟩

/-- The second witness grain after the coloring pass moved it to order
parameter 1. -/
def wC2gB2 : Grain := ⟨1, 1, 0, [⟨1, 1⟩], 1, ⊤⟩

/-- The witness grain map handed to `reassign_grains`. -/
def wC2m : List (ℕ × Grain) := [(0, wC2gA), (1, wC2gB)]

/-- First witness grain after the neighbor pass cached distance -1. -/
def wC2gA3 : Grain := ⟨0, 0, 0, [⟨0, 1⟩], 1, ((-1 : ℚ) : WithTop ℚ)⟩

/-- Second witness grain after coloring and the neighbor pass. -/
def wC2gB3 : Grain := ⟨1, 1, 0, [⟨1, 1⟩], 1, ((-1 : ℚ) : WithTop ℚ)⟩

/-- The expected output map of `reassign_grains` on the witness data. -/
def wC2m2 : List (ℕ × Grain) := [(0, wC2gA3), (1, wC2gB3)]

/-! ### Local flood segmenter: the two `run_flooding` implementations
(tracker.h lines 584-632 and distributed_stitching.h lines 40-100) -/

/-- A mesh cell as the flooding sees it: hierarchical children (empty for an
active cell), the ownership flag, the dof values of the inspected solution
block, and the face-neighbor indices. -/
structure FCell where
  children : List ℕ
  owned : Bool
  values : List ℚ
  nbrs : List ℕ
deriving DecidableEq

instance : Inhabited FCell := ⟨⟨[], false, [], []⟩⟩

/-- The signed maximum of the dof values,
`*std::max_element(values.begin(), values.end())`; dof vectors are never
empty in the source, the empty case defaults to 0. -/
def maxDofValue (l : List ℚ) : ℚ :=
  l.foldl max (l.headD 0)

/-- Whether the `linfty_norm` of the dof values is zero, i.e. all values
vanish: the particle test of the tracker.h flooding (line 616). -/
def linftyZero (l : List ℚ) : Bool :=
  l.all (fun v => decide (v = 0))

mutual

/-- `Tracker::run_flooding` (tracker.h lines 584-632): recurse through
children (note the counter starts at 1 there), skip non-owned and visited
cells, skip cells whose dof values have zero `linfty_norm` — the stored
`threshold_lower` member is NOT consulted — then label the cell and flood
the face neighbors.  Fuel makes the recursion structural; the returned
count mirrors the C++ return value. -/
def floodTracker (mesh : List FCell) (id : ℕ) :
    ℕ → ℕ → (ℕ → Option ℕ) → (ℕ → Option ℕ) × ℕ
  | 0, _, pids => (pids, 0)
  | fuel + 1, c, pids =>
    let cell := mesh.getD c default
    if cell.children ≠ [] then
      let r := floodTrackerList mesh id fuel cell.children pids
      (r.1, r.2 + 1)
    else if cell.owned = false then (pids, 0)
    else
      match pids c with
      | some _ => (pids, 0)
      | none =>
        if linftyZero cell.values then (pids, 0)
        else
          let pids1 := fun c2 => if c2 = c then some id else pids c2
          let r := floodTrackerList mesh id fuel cell.nbrs pids1
          (r.1, r.2 + 1)

/-- Folding `Tracker::run_flooding` over a list of cells, summing the
returned counters. -/
def floodTrackerList (mesh : List FCell) (id : ℕ) :
    ℕ → List ℕ → (ℕ → Option ℕ) → (ℕ → Option ℕ) × ℕ
  | 0, _, pids => (pids, 0)
  | _ + 1, [], pids => (pids, 0)
  | fuel + 1, c :: rest, pids =>
    let r := floodTracker mesh id fuel c pids
    let r2 := floodTrackerList mesh id fuel rest r.1
    (r2.1, r.2 + r2.2)

end

mutual

/-- `GrainTracker::run_flooding` (distributed_stitching.h lines 40-100):
same traversal, but a cell carries a particle exactly when the signed
maximum of its dof values exceeds `threshold_lower`, and the running
order-parameter maximum is threaded through.  The child counter starts at
0 here. -/
def floodStitch (mesh : List FCell) (th : ℚ) (id : ℕ) :
    ℕ → ℕ → (ℕ → Option ℕ) × ℚ → ((ℕ → Option ℕ) × ℚ) × ℕ
  | 0, _, st => (st, 0)
  | fuel + 1, c, st =>
    let cell := mesh.getD c default
    if cell.children ≠ [] then floodStitchList mesh th id fuel cell.children st
    else if cell.owned = false then (st, 0)
    else
      match st.1 c with
      | some _ => (st, 0)
      | none =>
        let cmax := maxDofValue cell.values
        if cmax > th then
          let pids1 := fun c2 => if c2 = c then some id else st.1 c2
          let r := floodStitchList mesh th id fuel cell.nbrs (pids1, max st.2 cmax)
          (r.1, r.2 + 1)
        else (st, 0)

/-- Folding `GrainTracker::run_flooding` over a list of cells, summing the
returned counters. -/
def floodStitchList (mesh : List FCell) (th : ℚ) (id : ℕ) :
    ℕ → List ℕ → (ℕ → Option ℕ) × ℚ → ((ℕ → Option ℕ) × ℚ) × ℕ
  | 0, _, st => (st, 0)
  | _ + 1, [], st => (st, 0)
  | fuel + 1, c :: rest, st =>
    let r := floodStitch mesh th id fuel c st
    let r2 := floodStitchList mesh th id fuel rest r.1
    (r2.1, r.2 + r2.2)

end

/-- The flooding loop of `detect_local_particle_groups`
(distributed_stitching.h lines 469-483): flood from every cell in turn,
incrementing the local particle id whenever a flood labelled something;
`particle_ids` starts all-invalid. -/
def detectStitchLoop (mesh : List FCell) (th : ℚ) (fuel : ℕ) :
    List ℕ → ((ℕ → Option ℕ) × ℚ) × ℕ → ((ℕ → Option ℕ) × ℚ) × ℕ
  | [], st => st
  | c :: rest, ((pids, mx), counter) =>
    let r := floodStitch mesh th counter fuel c (pids, mx)
    if r.2 > 0 then detectStitchLoop mesh th fuel rest (r.1, counter + 1)
    else detectStitchLoop mesh th fuel rest (r.1, counter)

/-! ### Grain builder reductions (tracker.h lines 895-994 and
distributed_stitching.h `compute_particles_info`, lines 260-316) -/

/-- A locally owned cell of one rank as the particle-info pass sees it:
measure, center (1-D) and the global particle id it carries (invalid =
`none`). -/
structure PCell where
  measure : ℚ
  center : ℚ
  pid : Option ℕ
deriving DecidableEq

/-- The local contribution of one rank to the info of particle `p`:
summed measure and measure-weighted center sum (the
`particle_info` buffer of one rank before the reduction). -/
def localParticleInfo (cells : List PCell) (p : ℕ) : ℚ × ℚ :=
  cells.foldl
    (fun acc cl =>
      if cl.pid = some p then (acc.1 + cl.measure, acc.2 + cl.center * cl.measure)
      else acc)
    (0, 0)

/-- The `particle_info` buffer held by rank `r` after the `MPI_Allreduce`
of `compute_particles_info` (distributed_stitching.h lines 294-299): every
rank receives the global sum. -/
def infoAllreduce (nRanks : ℕ) (ranks : ℕ → List PCell) (r p : ℕ) : ℚ × ℚ :=
  (r, ((List.range nRanks).map (fun r2 => localParticleInfo (ranks r2) p)).foldl
    (fun a b => (a.1 + b.1, a.2 + b.2)) (0, 0)).2

/-- The `particle_info` buffer held by rank `r` after the rooted
`MPI_Reduce(..., 0, comm)` of `Tracker::detect_grains` (tracker.h lines
938-946): rank 0 reduces in place and holds the global sum, every other
rank's buffer keeps its local partial sums. -/
def infoTrackerReduce (nRanks : ℕ) (ranks : ℕ → List PCell) (r p : ℕ) : ℚ × ℚ :=
  if r = 0 then infoAllreduce nRanks ranks 0 p else localParticleInfo (ranks r) p

/-- The particle center as computed by each rank from its `particle_info`
buffer (weighted sum divided by measure), after the all-reduce variant. -/
def centerAllreduce (nRanks : ℕ) (ranks : ℕ → List PCell) (r p : ℕ) : ℚ :=
  (infoAllreduce nRanks ranks r p).2 / (infoAllreduce nRanks ranks r p).1

/-- The particle center as computed by each rank in
`Tracker::detect_grains` (tracker.h lines 948-958) from its post-reduce
buffer. -/
def centerTrackerReduce (nRanks : ℕ) (ranks : ℕ → List PCell) (r p : ℕ) : ℚ :=
  (infoTrackerReduce nRanks ranks r p).2 / (infoTrackerReduce nRanks ranks r p).1

/-- The local contribution of one rank to the over-approximating radius of
particle `p` around center `c`: max over its cells of distance to center
plus half the cell diameter (in 1-D the diameter of a cell of measure `m`
is `m`), the pre-reduction `particle_radii` entry. -/
def localParticleRadius (cells : List PCell) (c : ℚ) (p : ℕ) : ℚ :=
  cells.foldl
    (fun acc cl =>
      if cl.pid = some p then max acc (|c - cl.center| + cl.measure / 2) else acc)
    0

/-- The `particle_radii` entry held by rank `r` after the `MPI_Allreduce`
max-reduction of `compute_particles_radii`: the global maximum of the local
radii computed against the (everywhere identical) all-reduced center. -/
def radiusAllreduce (nRanks : ℕ) (ranks : ℕ → List PCell) (r p : ℕ) : ℚ :=
  (r, ((List.range nRanks).map
      (fun r2 => localParticleRadius (ranks r2) (centerAllreduce nRanks ranks r2 p) p)).foldl
    max 0).2

/-! ### Remapping engine: `Tracker::remap`, tracker.h lines 220-537.

The field containers are modelled by one function `ℕ → ℕ → ℚ` (block id,
cell index ↦ value); cells are their 1-D barycenters, all locally owned
(single-process view — remapping performs no communication).  The class
`RemapGraph` (remap_graph.h) is not part of src/, so cycle resolution and
rearrangement are modelled from the spec. -/

/-- The `Remapping` record of remapping.h (not in src/), modelled from the
spec: "a directed edge (`grain_id`, `from_channel`, `to_channel`)
describing a pending data move". -/
structure Remapping where
  grain_id : ℕ
  from_ : ℕ
  to_ : ℕ
deriving DecidableEq

/-- Lookup of `grains.at(grain_id)` in the grain list. -/
def grainsAt (gs : List Grain) (id : ℕ) : Grain :=
  (gs.find? (fun g => g.grain_id = id)).getD default

/-- Membership of a cell (by barycenter) in the buffer zone of a grain,
as tested by `alter_dof_values_for_grain` (tracker.h lines 241-255): within
segment radius plus transfer buffer of some segment. -/
def inBuffer (g : Grain) (x : ℚ) : Bool :=
  g.segments.any (fun s =>
    decide (((|x - s.center| : ℚ) : WithTop ℚ) < (s.radius : WithTop ℚ) + g.transfer_buffer))

/-- The overlap test of tracker.h lines 329-333,
`grain_i.distance(grain_j) - buffer_i - buffer_j < 0`, written with the
subtraction moved to the right-hand side so that it lives in `WithTop ℚ`. -/
def hasOverlap (a b : Grain) : Prop :=
  a.distance b < a.transfer_buffer + b.transfer_buffer

instance (a b : Grain) : Decidable (hasOverlap a b) := by
  unfold hasOverlap; infer_instance

/-- Modelled from the spec (remap_graph.h is not in src/): a dependency
edge between two pending remappings, "an edge (ri → rj) exists if grains
ri, rj spatially overlap (within combined buffers) and `ri.to == rj.from`"
(the grains are looked up by id as tracker.h lines 321-339 do). -/
def dependsOn (gs : List Grain) (ri rj : Remapping) : Bool :=
  decide (ri ≠ rj) && decide (hasOverlap (grainsAt gs ri.grain_id) (grainsAt gs rj.grain_id))
    && decide (ri.to_ = rj.from_)

/-- Remappings reachable from `r0` in one or more `dependsOn` steps,
computed by bounded frontier iteration over the remapping list. -/
def reachIter (gs : List Grain) (rs : List Remapping) (r0 : Remapping) :
    ℕ → List Remapping
  | 0 => rs.filter (fun r => dependsOn gs r0 r)
  | k + 1 =>
    let s := reachIter gs rs r0 k
    rs.filter (fun r => dependsOn gs r0 r || s.any (fun s2 => dependsOn gs s2 r))

/-- Modelled from the spec: a remapping is a cycle member when it is
reachable from itself through dependency edges ("any detected cycle
requires routing through temporary storage"). -/
def inCycle (gs : List Grain) (rs : List Remapping) (r : Remapping) : Bool :=
  (reachIter gs rs r rs.length).any (fun s => s = r)

/-- Modelled from the spec (`RemapGraph::rearrange`): reorder the non-cycle
remappings so that a remapping runs only after every remapping it depends
on ("perform at first those at the end of the graph in order not to break
the configuration of the domain").  Each round extracts the remappings that
depend on no other remaining one; if none is ready (cycles were already
removed, so this is only a fuel guard) the rest is emitted as-is. -/
def rearrange (gs : List Grain) : ℕ → List Remapping → List Remapping
  | 0, rs => rs
  | fuel + 1, rs =>
    let ready := rs.filter (fun r => !(rs.any (fun s => decide (s ≠ r) && dependsOn gs r s)))
    if ready.isEmpty then rs
    else ready ++ rearrange gs fuel (rs.filter (fun r => !(ready.any (fun s => decide (s = r)))))

/-- One solution field: block id and cell index to dof value. -/
def FieldV : Type := ℕ → ℕ → ℚ

/-- The temporary blocks created for cycle breaking: slot and cell index to
value. -/
def TempV : Type := ℕ → ℕ → ℚ

/-- Write zero into block `b` for every cell inside the grain's buffer
(the "nullify the old dofs" loops of tracker.h). -/
def zeroChan (cells : List ℚ) (g : Grain) (b : ℕ) (f : FieldV) : FieldV :=
  fun b2 c =>
    if b2 = b ∧ c < cells.length ∧ inBuffer g (cells.getD c 0) then 0 else f b2 c

/-- Copy block `src` into block `dst` for every cell inside the grain's
buffer (the value-transfer loops of tracker.h). -/
def copyChan (cells : List ℚ) (g : Grain) (src dst : ℕ) (f : FieldV) : FieldV :=
  fun b2 c =>
    if b2 = dst ∧ c < cells.length ∧ inBuffer g (cells.getD c 0) then f src c else f b2 c

/-- Copy block `src` of the field into temp slot `slot` inside the grain's
buffer (first half of the cycle-breaking transfer, tracker.h lines 437-445). -/
def copyToTemp (cells : List ℚ) (g : Grain) (src slot : ℕ) (f : FieldV) (t : TempV) : TempV :=
  fun sl c =>
    if sl = slot ∧ c < cells.length ∧ inBuffer g (cells.getD c 0) then f src c else t sl c

/-- Copy temp slot `slot` into block `dst` inside the grain's buffer
(the final cycle-breaking transfer, tracker.h lines 503-534). -/
def copyFromTemp (cells : List ℚ) (g : Grain) (slot dst : ℕ) (t : TempV) (f : FieldV) : FieldV :=
  fun b2 c =>
    if b2 = dst ∧ c < cells.length ∧ inBuffer g (cells.getD c 0) then t slot c else f b2 c

/-- Phase 1 of `Tracker::remap` (lines 267-297): zero the channel of every
disappeared grain inside its buffer. -/
def doDisappear (cells : List ℚ) (off : ℕ) (dis : List Grain) (f : FieldV) : FieldV :=
  dis.foldl (fun acc g => zeroChan cells g (g.order_parameter_id + off) acc) f

/-- Phase 2 of `Tracker::remap` (lines 418-458): for each cycle-member
remapping (slot = position in the list), copy the source channel to its
temp slot, then zero the source channel. -/
def doDrain (cells : List ℚ) (off : ℕ) (gs : List Grain) (viaTemp : List Remapping)
    (st : FieldV × TempV) : FieldV × TempV :=
  viaTemp.enum.foldl
    (fun acc sr =>
      let g := grainsAt gs sr.2.grain_id
      let t2 := copyToTemp cells g (sr.2.from_ + off) sr.1 acc.1 acc.2
      (zeroChan cells g (sr.2.from_ + off) acc.1, t2))
    st

/-- Phase 3 of `Tracker::remap` (lines 460-500): for each remaining
remapping, copy source to destination channel, then zero the source. -/
def doMoves (cells : List ℚ) (off : ℕ) (gs : List Grain) (rs : List Remapping)
    (f : FieldV) : FieldV :=
  rs.foldl
    (fun acc r =>
      let g := grainsAt gs r.grain_id
      zeroChan cells g (r.from_ + off) (copyChan cells g (r.from_ + off) (r.to_ + off) acc))
    f

/-- Phase 4 of `Tracker::remap` (lines 502-534): copy each temp slot into
its destination channel (the temporary vectors are then discarded, so no
nullification follows). -/
def doRefill (cells : List ℚ) (off : ℕ) (gs : List Grain) (viaTemp : List Remapping)
    (st : FieldV × TempV) : FieldV :=
  viaTemp.enum.foldl
    (fun acc sr =>
      let g := grainsAt gs sr.2.grain_id
      copyFromTemp cells g sr.1 (sr.2.to_ + off) st.2 acc)
    st.1

/-- One entry of the remap execution schedule, in program order. -/
inductive RemapEvent where
  | vanish (gid bl : ℕ)
  | drainCopy (gid src slot : ℕ)
  | drainZero (gid src : ℕ)
  | moveCopy (gid src dst : ℕ)
  | moveZero (gid src : ℕ)
  | refillCopy (gid slot dst : ℕ)
deriving DecidableEq

/-- The phase of an event in the four-phase protocol of `Tracker::remap`:
disappearance zeroing, drain to temp, direct moves, refill from temp. -/
def phaseRank : RemapEvent → ℕ
  | RemapEvent.vanish _ _ => 0
  | RemapEvent.drainCopy _ _ _ => 1
  | RemapEvent.drainZero _ _ => 1
  | RemapEvent.moveCopy _ _ _ => 2
  | RemapEvent.moveZero _ _ => 2
  | RemapEvent.refillCopy _ _ _ => 3

/-- The schedule of dof-altering operations emitted by one `Tracker::remap`
call, in the order the source performs them. -/
def remapSchedule (off : ℕ) (dis : List Grain) (viaTemp directs : List Remapping) :
    List RemapEvent :=
  dis.map (fun g => RemapEvent.vanish g.grain_id (g.order_parameter_id + off))
    ++ viaTemp.enum.flatMap (fun sr =>
        [RemapEvent.drainCopy sr.2.grain_id (sr.2.from_ + off) sr.1,
         RemapEvent.drainZero sr.2.grain_id (sr.2.from_ + off)])
    ++ directs.flatMap (fun r =>
        [RemapEvent.moveCopy r.grain_id (r.from_ + off) (r.to_ + off),
         RemapEvent.moveZero r.grain_id (r.from_ + off)])
    ++ viaTemp.enum.map (fun sr => RemapEvent.refillCopy sr.2.grain_id sr.1 (sr.2.to_ + off))

/-- The pending remappings of tracker.h lines 300-313: one entry per grain
whose order parameter changed, in map order. -/
def buildRemappings (grains : List Grain) : List Remapping :=
  (grains.filter (fun g => decide (g.order_parameter_id ≠ g.old_order_parameter_id))).map
    (fun g => ⟨g.grain_id, g.old_order_parameter_id, g.order_parameter_id⟩)

/-- The grains of `old_grains` absent from `grains` (tracker.h lines
267-275). -/
def disappearedGrains (grains oldGrains : List Grain) : List Grain :=
  oldGrains.filter (fun og => grains.all (fun g => decide (g.grain_id ≠ og.grain_id)))

/-- `Tracker::remap` (tracker.h lines 220-537): zero disappeared grains,
build the remapping list, split off the cycle members (spec-modelled
`RemapGraph::resolve_cycles`), rearrange the rest (spec-modelled
`RemapGraph::rearrange`), then run the four phases.  Returns the final
field and the executed schedule. -/
def remap (cells : List ℚ) (off : ℕ) (grains oldGrains : List Grain) (f : FieldV) :
    FieldV × List RemapEvent :=
  let dis := disappearedGrains grains oldGrains
  let f1 := doDisappear cells off dis f
  let rs := buildRemappings grains
  let viaTemp := rs.filter (fun r => inCycle grains rs r)
  let directs0 := rs.filter (fun r => !(inCycle grains rs r))
  let directs := rearrange grains (directs0.length + 1) directs0
  let st2 := doDrain cells off grains viaTemp (f1, fun _ _ => 0)
  let f3 := doMoves cells off grains directs st2.1
  let f4 := doRefill cells off grains viaTemp (f3, st2.2)
  (f4, remapSchedule off dis viaTemp directs)

/-! ### Distributed stitcher: `Tracker::perform_distributed_stitching`,
tracker.h lines 634-789.

Particles across all ranks are numbered by their provisionally-global ids
`0 .. n-1` (the per-rank exclusive scan of local counts makes the id ranges
rank-major, so the rank owning an id is a monotone function of the id).  An
entry `(rank, id)` of a connectivity list always satisfies
`rank = owner id` — the construction in `detect_grains` stores the ghost
cell's `subdomain_id` next to the particle id it carries, and forwarded
entries are copied verbatim — so the per-particle connectivity lists become
`Finset ℕ` of particle ids, and the joint state of all ranks is one
function `ℕ → Finset ℕ`.  Each consensus round computes all messages from
the state at the round's start and merges them with sort-unique (set
union), which is exactly `round` below; the loop stops at the first round
in which no list changed anywhere (`finished` summed over ranks). -/

/-- One synchronous round of the fixed-point loop (tracker.h lines
653-718): particle `i` sends, for every entry `p` of its list owned by
another rank, the set `{i} ∪ (list i \ {p})` to `p`; every particle merges
everything it received into its list. -/
def round (n : ℕ) (owner : ℕ → ℕ) (st : ℕ → Finset ℕ) : ℕ → Finset ℕ :=
  fun p =>
    st p ∪
      (Finset.range n).biUnion (fun i =>
        if p ∈ st i ∧ owner i ≠ owner p then insert i ((st i).erase p) else ∅)

/-- The `while (true)` loop of tracker.h lines 653-718: apply rounds until
none of the `n` connectivity lists changes, with enough fuel to reach the
fixed point. -/
def iterRounds (n : ℕ) (owner : ℕ → ℕ) : ℕ → (ℕ → Finset ℕ) → ℕ → Finset ℕ
  | 0, st => st
  | fuel + 1, st =>
    let st2 := round n owner st
    if ∀ p ∈ Finset.range n, st2 p = st p then st2
    else iterRounds n owner fuel st2

/-- The connectivity state at the fixed point of the consensus loop:
`n * n + 1` rounds always suffice, because a non-final round strictly grows
the total size of the lists, which is bounded by `n * n`. -/
def stitchState (n : ℕ) (owner : ℕ → ℕ) (st0 : ℕ → Finset ℕ) : ℕ → Finset ℕ :=
  iterRounds n owner (n * n + 1) st0

/-- The lexicographic order on the `(rank, id)` pairs in which the C++
connectivity lists are kept sorted. -/
def lexLt (owner : ℕ → ℕ) (a b : ℕ) : Prop :=
  owner a < owner b ∨ (owner a = owner b ∧ a < b)

instance (owner : ℕ → ℕ) (a b : ℕ) : Decidable (lexLt owner a b) := by
  unfold lexLt; infer_instance

/-- The first element of a sorted connectivity list, `input_i[0]`: the
`(rank, id)`-lexicographic minimum of the set. -/
def lexFirst (owner : ℕ → ℕ) (s : Finset ℕ) : Option ℕ :=
  (s.sort (· ≤ ·)).foldl
    (fun acc x =>
      match acc with
      | none => some x
      | some m => if lexLt owner x m then some x else some m)
    none

/-- The clique-representative test of tracker.h lines 724-745 (step 2): a
particle with an empty list represents itself; a particle with a non-empty
list represents its clique iff `my_rank <= rank(first)` and
`my_id < id(first)` for the first (lexicographically smallest) entry. -/
def isRep (owner : ℕ → ℕ) (st : ℕ → Finset ℕ) (i : ℕ) : Bool :=
  match lexFirst owner (st i) with
  | none => true
  | some m => decide (owner i ≤ owner m ∧ i < m)

/-- The dense clique id handed out in step 3 (tracker.h lines 747-761): the
exclusive scan of per-rank representative counts plus the position among
the representatives of the own rank, i.e. the number of representatives
preceding `i` in `(rank, id)` order. -/
def cliqueNum (n : ℕ) (owner : ℕ → ℕ) (st : ℕ → Finset ℕ) (i : ℕ) : ℕ :=
  ((Finset.range n).filter (fun r => isRep owner st r = true ∧ lexLt owner r i)).card

/-- The representatives that notify particle `j` of a clique id (step 3): a
representative messages every member of its list and itself.  The source
asserts via `AssertDimension` that each particle is notified exactly once;
the correctness theorem proves this list is a singleton. -/
def notifySet (n : ℕ) (owner : ℕ → ℕ) (st : ℕ → Finset ℕ) (j : ℕ) : List ℕ :=
  (List.range n).filter (fun r =>
    isRep owner st r && (decide (j = r) || decide (j ∈ st r)))

/-- `Tracker::perform_distributed_stitching` (tracker.h lines 634-789):
run the consensus rounds to the fixed point, pick clique representatives,
number them densely, and notify every particle; `none` models
`numbers::invalid_unsigned_int` (a particle no representative notified). -/
def perform_distributed_stitching (n : ℕ) (owner : ℕ → ℕ) (st0 : ℕ → Finset ℕ)
    (j : ℕ) : Option ℕ :=
  let st := stitchState n owner st0
  (notifySet n owner st j).head?.map (cliqueNum n owner st)

/-- The number of cliques found: how many particles pass the
representative test at the fixed point. -/
def nCliques (n : ℕ) (owner : ℕ → ℕ) (st0 : ℕ → Finset ℕ) : ℕ :=
  ((Finset.range n).filter
    (fun r => isRep owner (stitchState n owner st0) r = true)).card

/-- Transitive connectivity of particles through the initial edge lists:
the "transitively connected by connectivity edges" relation of the spec. -/
def Connected (st0 : ℕ → Finset ℕ) : ℕ → ℕ → Prop :=
  Relation.ReflTransGen (fun a b => b ∈ st0 a)

/-- Total size of the `n` connectivity lists: the termination measure of
the consensus loop (each non-final round strictly increases it). -/
def stitchW (n : ℕ) (st : ℕ → Finset ℕ) : ℕ :=
  ∑ p ∈ Finset.range n, (st p).card

/-- The set of particles that pass the clique-representative test at the
fixed point (the particles contributing an entry to `input_valid`). -/
def Reps (n : ℕ) (owner : ℕ → ℕ) (st0 : ℕ → Finset ℕ) : Finset ℕ :=
  (Finset.range n).filter
    (fun r => isRep owner (stitchState n owner st0) r = true)

/-- The smallest member of the clique of particle `i` at the fixed point
(the particle that ends up representing `i`). -/
def repOf (n : ℕ) (owner : ℕ → ℕ) (st0 : ℕ → Finset ℕ) (i : ℕ) : ℕ :=
  (insert i (stitchState n owner st0 i)).min' (Finset.insert_nonempty i _)

/-- The well-formedness of the stitching input produced by
`Tracker::detect_grains` (tracker.h lines 833-886): edge lists mention
valid particles only, particles past the end have empty lists, the
ghost-face construction is symmetric and only ever links particles of
different ranks, and the `MPI_Exscan` numbering hands each rank a
contiguous ascending block of particle ids (so the owner map is
monotone). -/
structure StitchOK (n : ℕ) (owner : ℕ → ℕ) (st0 : ℕ → Finset ℕ) : Prop where
  range_ok : ∀ i, st0 i ⊆ Finset.range n
  out_ok : ∀ i, n ≤ i → st0 i = ∅
  sym : ∀ i j, j ∈ st0 i → i ∈ st0 j
  cross : ∀ i j, j ∈ st0 i → owner i ≠ owner j
  mono : Monotone owner

/-- Initial connectivity for the stitching witness: two particles on two
ranks, linked symmetrically. -/
def wSt0 : ℕ → Finset ℕ :=
  fun i => if i = 0 then {1} else if i = 1 then {0} else ∅

/-! ### Analysis scaffolding for the matching argmin (claim C5) -/

/-- The candidate triples (new segment, old grain id, old segment) that the
three nested loops of `Tracker::track` lines 102-121 enumerate, flattened
in iteration order. -/
def candTriples (oldAt : ℕ → Grain) (cands : List ℕ) (segs : List Segment) :
    List (Segment × ℕ × Segment) :=
  segs.flatMap (fun ns =>
    cands.flatMap (fun oid => ((oldAt oid).segments).map (fun os => (ns, oid, os))))

/-- The update of the running (min distance, matched id) accumulator for
one candidate triple, as in tracker.h lines 110-118. -/
def closestStep (oldAt : ℕ → Grain) (best : WithTop ℚ × Option ℕ)
    (t : Segment × ℕ × Segment) : WithTop ℚ × Option ℕ :=
  let d : ℚ := |t.1.center - t.2.2.center|
  if d < t.1.radius ∧ ((d : ℚ) : WithTop ℚ) < best.1 then
    (((d : ℚ) : WithTop ℚ), some (oldAt t.2.1).grain_id)
  else best

/-- Invariant of the candidate scan: over the processed triples `S`, a
`none` accumulator means no admissible triple was seen, and a `some`
accumulator carries a witness triple of minimal admissible distance. -/
def ClosestInv (oldAt : ℕ → Grain) (S : Segment × ℕ × Segment → Prop)
    (acc : WithTop ℚ × Option ℕ) : Prop :=
  (acc.2 = none → acc.1 = ⊤ ∧ ∀ t, S t → ¬ |t.1.center - t.2.2.center| < t.1.radius) ∧
  (∀ nid, acc.2 = some nid →
    (∃ t, S t ∧ |t.1.center - t.2.2.center| < t.1.radius ∧
      nid = (oldAt t.2.1).grain_id ∧
      acc.1 = ((|t.1.center - t.2.2.center| : ℚ) : WithTop ℚ)) ∧
    (∀ t, S t → |t.1.center - t.2.2.center| < t.1.radius →
      acc.1 ≤ ((|t.1.center - t.2.2.center| : ℚ) : WithTop ℚ)))

/-! ### Concrete instances used by counterexamples and witnesses -/

/-- A previously tracked grain with key 5, order parameter 0, one segment
of radius 2 centered at the origin. -/
def wGrainA : Grain := ⟨5, 0, 0, [⟨0, 2⟩], 2, ⊤⟩

/-- A freshly detected grain on order parameter 1 sitting on top of
`wGrainA`. -/
def wGrainN : Grain := ⟨7, 1, 1, [⟨0, 2⟩], 2, ⊤⟩

/-- A freshly detected grain on order parameter 0 sitting on top of
`wGrainA`, so matching succeeds. -/
def wGrainM : Grain := ⟨9, 0, 0, [⟨0, 2⟩], 2, ⊤⟩

/-- Tracker state before a `track` call: one grain, empty `old_grains`. -/
def wStatePre : TrackerState := ⟨[(5, wGrainA)], []⟩

/-- A one-cell mesh whose single owned active cell carries the dof value
1/200: positive but below the default `threshold_lower = 0.01`. -/
def wMesh : List FCell := [⟨[], true, [1/200], []⟩]

/-- Two ranks, each owning one cell of measure 1 of the same particle 0:
rank 0's cell is centered at 0, rank 1's at 2. -/
def wRanks : ℕ → List PCell :=
  fun r => if r = 0 then [⟨1, 0, some 0⟩] else if r = 1 then [⟨1, 2, some 0⟩] else []

/-- Chain remapping, first grain: moving from channel 0 to channel 1,
one segment of radius 1 at the origin, transfer buffer 1. -/
def wGrainH : Grain := ⟨0, 1, 0, [⟨0, 1⟩], 1, ((2 : ℚ) : WithTop ℚ)⟩

/-- Chain remapping, second grain: moving from channel 1 (the channel
`wGrainH` moves into) to channel 2, same geometry. -/
def wGrainG : Grain := ⟨1, 2, 1, [⟨0, 1⟩], 1, ((2 : ℚ) : WithTop ℚ)⟩

/-- Cycle remapping, first grain: channel 0 to channel 1. -/
def wGrainC1 : Grain := ⟨0, 1, 0, [⟨0, 1⟩], 1, ((2 : ℚ) : WithTop ℚ)⟩

/-- Cycle remapping, second grain: channel 1 to channel 0. -/
def wGrainC2 : Grain := ⟨1, 0, 1, [⟨0, 1⟩], 1, ((2 : ℚ) : WithTop ℚ)⟩

/-- Initial field for the chain counterexample: value 5 in channel 0 and
value 7 in channel 1, zero elsewhere. -/
def wField0 : FieldV := fun b _ => if b = 0 then 5 else if b = 1 then 7 else 0

/-! ## Theorems -/

/-- Claim C10: calling `track` when the previous grain map is empty
dereferences `old_grains.rbegin()` of an empty map (modelled by the
`emptyOldMap` outcome), so `track` requires a non-empty previous grain set;
under that precondition the dereference is safe and yields the successor of
the largest previous grain id. -/
theorem track_empty_old_guard (allowNew : Bool) (newGrains : List Grain)
    (st : TrackerState) :
    (st.grains = [] → (track allowNew newGrains st).1 = Except.error TrackErr.emptyOldMap) ∧
    (st.grains ≠ [] →
      ∃ p, st.grains.getLast? = some p ∧ nextGrainNumberer st.grains = some (p.1 + 1)) := by
  constructor
  · intro h
    simp [track, nextGrainNumberer, h]
  · intro h
    refine ⟨st.grains.getLast h, List.getLast?_eq_getLast _ h, ?_⟩
    simp [nextGrainNumberer, List.getLast?_eq_getLast _ h]

/-- Witness for C10 at concrete inputs: the empty state triggers the
empty-map dereference, and a one-entry map with key 3 yields numberer 4. -/
theorem track_empty_old_guard_w :
    (track false [] ⟨[], []⟩).1 = Except.error TrackErr.emptyOldMap ∧
    nextGrainNumberer [(3, (default : Grain))] = some 4 := by
  constructor
  · exact (track_empty_old_guard false [] ⟨[], []⟩).1 rfl
  · obtain ⟨p, hp, hn⟩ :=
      (track_empty_old_guard false [] ⟨[(3, (default : Grain))], []⟩).2 (by simp)
    have hp2 : p = (3, (default : Grain)) := by
      have hps := hp.symm
      simpa using hps
    rw [hn, hp2]

/-- Claim C7: `reassign_grains` raises the capacity error exactly when the
coloring pass runs (an overlap was detected or reassignment was forced) and
the coloring reports more colors than `max_order_parameters_num`; with
enough capacity no capacity error is raised on any path. -/
theorem reassign_capacity_err_iff (coeff : ℚ) (maxN : ℕ) (force : Bool)
    (coloring : ℕ → ℕ) (nColors : ℕ) (m : List (ℕ × Grain)) :
    reassign_grains coeff maxN force coloring nColors m =
        Except.error ReassignErr.capacity ↔
      overlapDetected coeff force m = true ∧ maxN < nColors := by
  by_cases h : overlapDetected coeff force m = true ∧ maxN < nColors
  · simp [reassign_grains, h]
  · refine iff_of_false ?_ h
    simp only [reassign_grains, if_neg h]
    intro hc
    revert hc
    split
    · simp
    · split <;> split <;> simp

/-- Claim C9 (code at the failing input): with two ranks each holding one
cell of the same particle, the rooted `MPI_Reduce` of
`Tracker::detect_grains` leaves rank 1 computing the particle center from
its local partial sums (center 2) while rank 0 holds the global center 1 —
the processes disagree; the all-reduce of `compute_particles_info` gives
every rank the same center 1. -/
theorem detect_grains_center_diverges :
    centerTrackerReduce 2 wRanks 1 0 = 2 ∧ centerTrackerReduce 2 wRanks 0 0 = 1 ∧
    centerAllreduce 2 wRanks 1 0 = 1 ∧ centerAllreduce 2 wRanks 0 0 = 1 := by
  refine ⟨?_, ?_, ?_, ?_⟩ <;>
    norm_num [centerTrackerReduce, centerAllreduce, infoTrackerReduce, infoAllreduce,
      localParticleInfo, wRanks, List.range_succ]

/-- The all-reduce variant (`compute_particles_info`) hands every rank the
same reduced buffer, so the computed center is rank independent. -/
theorem centerAllreduce_rank_invariant (n : ℕ) (ranks : ℕ → List PCell) (r r2 p : ℕ) :
    centerAllreduce n ranks r p = centerAllreduce n ranks r2 p := rfl

/-- The all-reduce max-reduction of `compute_particles_radii` is rank
independent as well. -/
theorem radiusAllreduce_rank_invariant (n : ℕ) (ranks : ℕ → List PCell) (r r2 p : ℕ) :
    radiusAllreduce n ranks r p = radiusAllreduce n ranks r2 p := rfl

/-- Claim C4 (code at the failing input): on a one-cell mesh whose dof
value 1/200 is positive but at most the default threshold 1/100,
`Tracker::run_flooding` labels the cell (it only tests
`linfty_norm == 0`, never `threshold_lower`), while the
`GrainTracker::run_flooding` of distributed_stitching.h leaves it invalid
as the claim demands. -/
theorem tracker_flooding_ignores_threshold :
    (floodTracker wMesh 0 2 0 (fun _ => none)).1 0 = some 0 ∧
    ((1 : ℚ)/200 ≤ 1/100) ∧
    (floodStitch wMesh (1/100) 0 2 0 (fun _ => none, 0)).1.1 0 = none := by
  refine ⟨?_, by norm_num, ?_⟩ <;>
    norm_num [floodTracker, floodStitch, floodTrackerList, floodStitchList, wMesh,
      linftyZero, maxDofValue]

/-- Counterexample to claim C8 as stated: matching `wGrainN` (order
parameter 1) against the previous grain 5 (order parameter 0) raises the
order-parameter inconsistency, yet the tracker state after the exception
differs from the state before the call: `old_grains` was overwritten with
the entry `grains` and `grains` was cleared. -/
theorem track_exception_mutates_state :
    track true [wGrainN] wStatePre =
      (Except.error TrackErr.opMismatch, ⟨[], [(5, wGrainA)]⟩) ∧
    wStatePre ≠ ⟨[], [(5, wGrainA)]⟩ := by
  constructor
  · norm_num [track, wStatePre, nextGrainNumberer, trackLoop, findClosest, mapAt,
      wGrainN, wGrainA]
  · simp [wStatePre]

/-- Claim C8 amended: when `track` raises a grains-inconsistency exception,
no rollback is performed — `old_grains` is left holding the grain map from
before the call (it is overwritten at entry), and `grains` retains whatever
partial matches were committed before the throw. -/
theorem track_exception_no_rollback (allowNew : Bool) (newGrains : List Grain)
    (st : TrackerState) (e : TrackErr) (post : TrackerState)
    (h : track allowNew newGrains st = (Except.error e, post)) :
    post.old_grains = st.grains := by
  unfold track at h
  split at h <;>
    (have h3 := congrArg Prod.snd h; simp only at h3; rw [← h3])

/-- Witness for the amended C8 at the concrete failing input. -/
theorem track_exception_no_rollback_w :
    (track true [wGrainN] wStatePre).2.old_grains = wStatePre.grains :=
  track_exception_no_rollback true [wGrainN] wStatePre TrackErr.opMismatch
    (track true [wGrainN] wStatePre).2
    (by
      norm_num [track, wStatePre, nextGrainNumberer, trackLoop, findClosest, mapAt,
        wGrainN, wGrainA])

/-! ### Claim C5: the matching argmin and the consumption of candidates -/

/-- Folding over a flattened list equals the nested fold. -/
theorem foldl_flatMap_eq {α β γ : Type} (f : γ → α → γ) (g : β → List α)
    (l : List β) (init : γ) :
    (l.flatMap g).foldl f init = l.foldl (fun acc b => (g b).foldl f acc) init := by
  induction l generalizing init with
  | nil => rfl
  | cons b l ih => simp [List.flatMap_cons, List.foldl_append, ih]

/-- The candidate search is the fold of `closestStep` over the flattened
triples. -/
theorem findClosest_eq_fold (oldAt : ℕ → Grain) (cands : List ℕ) (segs : List Segment) :
    findClosest oldAt cands segs =
      (candTriples oldAt cands segs).foldl (closestStep oldAt) (⊤, none) := by
  unfold findClosest candTriples closestStep
  rw [foldl_flatMap_eq]
  congr 1
  funext acc ns
  rw [foldl_flatMap_eq]
  congr 1
  funext acc2 oid
  rw [List.foldl_map]

/-- The invariant only depends on the extension of the processed set. -/
theorem ClosestInv_congr (oldAt : ℕ → Grain) {S S2 : Segment × ℕ × Segment → Prop}
    (h : ∀ t, S t ↔ S2 t) {acc : WithTop ℚ × Option ℕ}
    (hi : ClosestInv oldAt S acc) : ClosestInv oldAt S2 acc := by
  obtain ⟨h1, h2⟩ := hi
  refine ⟨fun hn => ⟨(h1 hn).1, fun t ht => (h1 hn).2 t ((h t).mpr ht)⟩, fun nid hs => ?_⟩
  obtain ⟨⟨t, ht, ha, hg, hd⟩, hmin⟩ := h2 nid hs
  exact ⟨⟨t, (h t).mp ht, ha, hg, hd⟩, fun t2 ht2 ha2 => hmin t2 ((h t2).mpr ht2) ha2⟩

/-- One `closestStep` preserves the invariant, extending the processed set
by the new triple. -/
theorem closestStep_invariant (oldAt : ℕ → Grain) (S : Segment × ℕ × Segment → Prop)
    (acc : WithTop ℚ × Option ℕ) (t : Segment × ℕ × Segment)
    (h : ClosestInv oldAt S acc) :
    ClosestInv oldAt (fun x => S x ∨ x = t) (closestStep oldAt acc t) := by
  obtain ⟨h1, h2⟩ := h
  unfold closestStep
  by_cases hc : |t.1.center - t.2.2.center| < t.1.radius ∧
      ((|t.1.center - t.2.2.center| : ℚ) : WithTop ℚ) < acc.1
  · rw [if_pos hc]
    constructor
    · intro hn; exact absurd hn (by simp)
    · intro nid hs
      have hnid : nid = (oldAt t.2.1).grain_id := (by simpa using hs : _ = nid).symm
      refine ⟨⟨t, Or.inr rfl, hc.1, hnid, rfl⟩, ?_⟩
      rintro t2 (ht2 | rfl) ha2
      · rcases ho : acc.2 with _ | m
        · exact absurd ha2 ((h1 ho).2 t2 ht2)
        · exact le_of_lt (lt_of_lt_of_le hc.2 ((h2 m ho).2 t2 ht2 ha2))
      · exact le_refl _
  · rw [if_neg hc]
    constructor
    · intro hn
      refine ⟨(h1 hn).1, ?_⟩
      rintro t2 (ht2 | rfl)
      · exact (h1 hn).2 t2 ht2
      · intro ha2
        exact hc ⟨ha2, (h1 hn).1 ▸ WithTop.coe_lt_top _⟩
    · intro nid hs
      obtain ⟨hw, hmin⟩ := h2 nid hs
      refine ⟨⟨hw.choose, Or.inl hw.choose_spec.1, hw.choose_spec.2⟩, ?_⟩
      rintro t2 (ht2 | rfl) ha2
      · exact hmin t2 ht2 ha2
      · exact not_lt.mp (fun hlt => hc ⟨ha2, hlt⟩)

/-- Folding `closestStep` over a triple list preserves the invariant,
extending the processed set by the list members. -/
theorem closestFold_invariant (oldAt : ℕ → Grain) (ts : List (Segment × ℕ × Segment)) :
    ∀ (S : Segment × ℕ × Segment → Prop) (acc : WithTop ℚ × Option ℕ),
      ClosestInv oldAt S acc →
      ClosestInv oldAt (fun x => S x ∨ x ∈ ts) (ts.foldl (closestStep oldAt) acc) := by
  induction ts with
  | nil =>
    intro S acc h
    exact ClosestInv_congr oldAt (fun t => by simp) h
  | cons t ts ih =>
    intro S acc h
    have h2 := ih (fun x => S x ∨ x = t) (closestStep oldAt acc t)
      (closestStep_invariant oldAt S acc t h)
    refine ClosestInv_congr oldAt (fun x => ?_) h2
    constructor
    · rintro ((hs | rfl) | hm)
      · exact Or.inl hs
      · exact Or.inr (List.mem_cons_self _ _)
      · exact Or.inr (List.mem_cons_of_mem _ hm)
    · rintro (hs | hm)
      · exact Or.inl (Or.inl hs)
      · rcases List.mem_cons.mp hm with rfl | hm2
        · exact Or.inl (Or.inr rfl)
        · exact Or.inr hm2

/-- The result of `findClosest` satisfies the scan invariant over all
candidate triples. -/
theorem findClosest_spec (oldAt : ℕ → Grain) (cands : List ℕ) (segs : List Segment) :
    ClosestInv oldAt (fun t => t ∈ candTriples oldAt cands segs)
      (findClosest oldAt cands segs) := by
  rw [findClosest_eq_fold]
  have h0 : ClosestInv oldAt (fun _ => False) ((⊤ : WithTop ℚ), (none : Option ℕ)) := by
    refine ⟨fun _ => ⟨rfl, fun t ht => absurd ht (by simp)⟩, fun nid hs => ?_⟩
    exact absurd hs (by simp)
  have h1 := closestFold_invariant oldAt (candTriples oldAt cands segs) _ _ h0
  exact ClosestInv_congr oldAt (fun t => by simp) h1

/-- Membership in the flattened candidate triples. -/
theorem mem_candTriples (oldAt : ℕ → Grain) (cands : List ℕ) (segs : List Segment)
    (t : Segment × ℕ × Segment) :
    t ∈ candTriples oldAt cands segs ↔
      t.1 ∈ segs ∧ t.2.1 ∈ cands ∧ t.2.2 ∈ (oldAt t.2.1).segments := by
  obtain ⟨ns, oid, os⟩ := t
  simp only [candTriples, List.mem_flatMap, List.mem_map]
  constructor
  · rintro ⟨ns2, hns2, oid2, hoid2, os2, hos2, heq⟩
    obtain ⟨rfl, rfl, rfl⟩ := Prod.mk.injEq .. ▸ (by
      have h1 := congrArg Prod.fst heq
      have h2 := congrArg (fun p => p.2.1) heq
      have h3 := congrArg (fun p => p.2.2) heq
      simp only at h1 h2 h3
      exact ⟨h1, h2, h3⟩ : ns2 = ns ∧ oid2 = oid ∧ os2 = os)
    exact ⟨hns2, hoid2, hos2⟩
  · rintro ⟨hns, hoid, hos⟩
    exact ⟨ns, hns, oid, hoid, os, hos, rfl⟩

/-- Claim C5: in `track`, a new grain is matched to the old grain realising
the minimum center distance among all candidate (new segment, old grain,
old segment) triples whose distance is below the new segment's radius —
`findClosest` returns a minimizing admissible triple's grain id and its
distance bounds every admissible triple's distance from below — and the
matching loop erases each matched old id from the candidate set, so the
list of old grain ids consumed in one `track` call has no duplicates. -/
theorem track_matching_minimal_and_injective :
    (∀ (oldAt : ℕ → Grain) (cands : List ℕ) (segs : List Segment) (nid : ℕ),
      (findClosest oldAt cands segs).2 = some nid →
      (∃ ns, ns ∈ segs ∧ ∃ oid, oid ∈ cands ∧ nid = (oldAt oid).grain_id ∧
        ∃ os, os ∈ (oldAt oid).segments ∧
          |ns.center - os.center| < ns.radius ∧
          (findClosest oldAt cands segs).1 = ((|ns.center - os.center| : ℚ) : WithTop ℚ)) ∧
      (∀ ns, ns ∈ segs → ∀ oid, oid ∈ cands → ∀ os, os ∈ (oldAt oid).segments →
        |ns.center - os.center| < ns.radius →
        (findClosest oldAt cands segs).1 ≤ ((|ns.center - os.center| : ℚ) : WithTop ℚ))) ∧
    (∀ (allowNew : Bool) (oldMap : List (ℕ × Grain)) (ngs : List Grain)
      (gm : List (ℕ × Grain)) (cands : List ℕ) (num : ℕ) (matched : List ℕ),
      (∀ k, k ∈ cands → (mapAt oldMap k).grain_id = k) →
      cands.Nodup → matched.Nodup → (∀ x, x ∈ matched → x ∉ cands) →
      ((trackLoop allowNew oldMap ngs (gm, cands, num, matched)).2.2.2.2).Nodup) := by
  have hspec : ∀ (oldAt : ℕ → Grain) (cands : List ℕ) (segs : List Segment) (nid : ℕ),
      (findClosest oldAt cands segs).2 = some nid →
      (∃ ns, ns ∈ segs ∧ ∃ oid, oid ∈ cands ∧ nid = (oldAt oid).grain_id ∧
        ∃ os, os ∈ (oldAt oid).segments ∧
          |ns.center - os.center| < ns.radius ∧
          (findClosest oldAt cands segs).1 = ((|ns.center - os.center| : ℚ) : WithTop ℚ)) ∧
      (∀ ns, ns ∈ segs → ∀ oid, oid ∈ cands → ∀ os, os ∈ (oldAt oid).segments →
        |ns.center - os.center| < ns.radius →
        (findClosest oldAt cands segs).1 ≤ ((|ns.center - os.center| : ℚ) : WithTop ℚ)) := by
    intro oldAt cands segs nid hs
    obtain ⟨⟨t, ht, ha, hg, hd⟩, hmin⟩ := (findClosest_spec oldAt cands segs).2 nid hs
    obtain ⟨ht1, ht2, ht3⟩ := (mem_candTriples oldAt cands segs t).mp ht
    constructor
    · exact ⟨t.1, ht1, t.2.1, ht2, hg, t.2.2, ht3, ha, hd⟩
    · intro ns hns oid hoid os hos ha2
      exact hmin (ns, oid, os) ((mem_candTriples oldAt cands segs _).mpr ⟨hns, hoid, hos⟩) ha2
  refine ⟨hspec, ?_⟩
  intro allowNew oldMap ngs
  induction ngs with
  | nil =>
    intro gm cands num matched _ _ hm _
    simpa [trackLoop] using hm
  | cons ng rest ih =>
    intro gm cands num matched hkey hcands hm hdisj
    rcases hfc : (findClosest (mapAt oldMap) cands ng.segments).2 with _ | nid
    · by_cases hal : allowNew = true
      · simpa [trackLoop, hfc, hal] using
          ih (mapSetGrainId num (mapEmplace num ng gm)) cands (num + 1) matched hkey hcands hm
            hdisj
      · have hal2 : allowNew = false := by
          revert hal; cases allowNew <;> simp
        simpa [trackLoop, hfc, hal2] using hm
    · obtain ⟨⟨ns, _, oid, hoid, hg, _⟩, _⟩ :=
        hspec (mapAt oldMap) cands ng.segments nid hfc
      have hnidc : nid ∈ cands := by
        rw [hg, hkey oid hoid]; exact hoid
      by_cases hop : (mapAt oldMap nid).order_parameter_id = ng.order_parameter_id
      · have hkey2 : ∀ k, k ∈ cands.erase nid → (mapAt oldMap k).grain_id = k :=
          fun k hk => hkey k (List.mem_of_mem_erase hk)
        have hcands2 : (cands.erase nid).Nodup := List.Nodup.erase _ hcands
        have hm2 : (matched ++ [nid]).Nodup := by
          rw [List.nodup_append]
          refine ⟨hm, List.nodup_singleton _, ?_⟩
          intro x hx hx2
          have hxe : x = nid := by simpa using hx2
          exact hdisj x hx (hxe ▸ hnidc)
        have hdisj2 : ∀ x, x ∈ matched ++ [nid] → x ∉ cands.erase nid := by
          intro x hx
          rcases List.mem_append.mp hx with hx1 | hx2
          · exact fun hxe => hdisj x hx1 (List.mem_of_mem_erase hxe)
          · have hxe : x = nid := by simpa using hx2
            rw [hxe]
            exact (List.Nodup.mem_erase_iff hcands).mp.mt (by simp)
        simpa [trackLoop, hfc, hop] using
          ih (mapSetGrainId nid (mapEmplace nid ng gm)) (cands.erase nid) num
            (matched ++ [nid]) hkey2 hcands2 hm2 hdisj2
      · simpa [trackLoop, hfc, hop] using hm

/-- Witness for C5 at concrete inputs: matching `wGrainM` against the
single previous grain 5 picks grain id 5 at distance 0 (the admissible
minimum), and the matched-id log of the loop is duplicate-free. -/
theorem track_matching_minimal_and_injective_w :
    ((findClosest (mapAt [(5, wGrainA)]) [5] [Segment.mk 0 2]).2 = some 5) ∧
    ((findClosest (mapAt [(5, wGrainA)]) [5] [Segment.mk 0 2]).1 ≤
      ((|(0 : ℚ) - 0| : ℚ) : WithTop ℚ)) ∧
    ((trackLoop true [(5, wGrainA)] [wGrainM] ([], [5], 6, [])).2.2.2.2).Nodup := by
  have h1 : (findClosest (mapAt [(5, wGrainA)]) [5] [Segment.mk 0 2]).2 = some 5 := by
    norm_num [findClosest, mapAt, wGrainA]
  refine ⟨h1, ?_, ?_⟩
  · have h2 := (track_matching_minimal_and_injective.1 (mapAt [(5, wGrainA)]) [5]
      [Segment.mk 0 2] 5 h1).2
    have h3 := h2 (Segment.mk 0 2) (by simp) 5 (by simp) (Segment.mk 0 2)
      (by simp [mapAt, wGrainA]) (by norm_num)
    simpa [mapAt, wGrainA] using h3
  · exact track_matching_minimal_and_injective.2 true [(5, wGrainA)] [wGrainM] [] [5] 6 []
      (by intro k hk; simp at hk; simp [hk, mapAt, wGrainA])
      (by simp) (by simp) (by simp)

/-! ### Claim C6: phase ordering of the remap schedule -/

/-- A list of equal naturals is sorted. -/
theorem pairwise_le_of_const (l : List ℕ) (k : ℕ) (h : ∀ x, x ∈ l → x = k) :
    l.Pairwise (· ≤ ·) := by
  induction l with
  | nil => exact List.Pairwise.nil
  | cons a l ih =>
    refine List.Pairwise.cons (fun b hb => ?_) (ih (fun x hx => h x (List.mem_cons_of_mem _ hx)))
    rw [h a (List.mem_cons_self _ _), h b (List.mem_cons_of_mem _ hb)]

/-- The phases of the remap schedule appear in nondecreasing order:
disappearance zeroing, drains to temp, direct moves, refills from temp. -/
theorem remapSchedule_rank_sorted (off : ℕ) (dis : List Grain)
    (viaTemp directs : List Remapping) :
    ((remapSchedule off dis viaTemp directs).map phaseRank).Pairwise (· ≤ ·) := by
  have h0 : ∀ x, x ∈ (dis.map
      (fun g => RemapEvent.vanish g.grain_id (g.order_parameter_id + off))).map phaseRank →
      x = 0 := by
    intro x hx
    simp only [List.mem_map] at hx
    obtain ⟨e, ⟨g, _, rfl⟩, rfl⟩ := hx
    rfl
  have h1 : ∀ x, x ∈ (viaTemp.enum.flatMap (fun sr =>
      [RemapEvent.drainCopy sr.2.grain_id (sr.2.from_ + off) sr.1,
       RemapEvent.drainZero sr.2.grain_id (sr.2.from_ + off)])).map phaseRank → x = 1 := by
    intro x hx
    simp only [List.mem_map, List.mem_flatMap] at hx
    obtain ⟨e, ⟨sr, _, he⟩, rfl⟩ := hx
    simp only [List.mem_cons, List.not_mem_nil, or_false] at he
    rcases he with rfl | rfl <;> rfl
  have h2 : ∀ x, x ∈ (directs.flatMap (fun r =>
      [RemapEvent.moveCopy r.grain_id (r.from_ + off) (r.to_ + off),
       RemapEvent.moveZero r.grain_id (r.from_ + off)])).map phaseRank → x = 2 := by
    intro x hx
    simp only [List.mem_map, List.mem_flatMap] at hx
    obtain ⟨e, ⟨r, _, he⟩, rfl⟩ := hx
    simp only [List.mem_cons, List.not_mem_nil, or_false] at he
    rcases he with rfl | rfl <;> rfl
  have h3 : ∀ x, x ∈ (viaTemp.enum.map
      (fun sr => RemapEvent.refillCopy sr.2.grain_id sr.1 (sr.2.to_ + off))).map phaseRank →
      x = 3 := by
    intro x hx
    simp only [List.mem_map] at hx
    obtain ⟨e, ⟨sr, _, rfl⟩, rfl⟩ := hx
    rfl
  unfold remapSchedule
  rw [List.map_append, List.map_append, List.map_append]
  rw [List.append_assoc, List.append_assoc]
  rw [List.pairwise_append]
  refine ⟨pairwise_le_of_const _ 0 h0, ?_, ?_⟩
  · rw [List.pairwise_append]
    refine ⟨pairwise_le_of_const _ 1 h1, ?_, ?_⟩
    · rw [List.pairwise_append]
      refine ⟨pairwise_le_of_const _ 2 h2, pairwise_le_of_const _ 3 h3, ?_⟩
      intro a ha b hb
      rw [h2 a ha, h3 b hb]
      norm_num
    · intro a ha b hb
      rw [h1 a ha]
      rcases List.mem_append.mp hb with hb2 | hb2
      · rw [h2 b hb2]; norm_num
      · rw [h3 b hb2]; norm_num
  · intro a ha b hb
    rw [h0 a ha]
    exact Nat.zero_le _

/-- Claim C6: in every execution of `remap`, every copy-to-temp /
zero-source operation for cycle members (phase rank 1) precedes every
copy-from-temp operation (phase rank 3), and no direct move (phase rank 2)
is executed while a drain to temporary storage is still pending: every
drain precedes every direct move in the schedule. -/
theorem remap_phase_order (cells : List ℚ) (off : ℕ) (grains oldGrains : List Grain)
    (f : FieldV) :
    ∀ (i j : ℕ) (hi : i < ((remap cells off grains oldGrains f).2).length)
      (hj : j < ((remap cells off grains oldGrains f).2).length),
      (phaseRank (((remap cells off grains oldGrains f).2).get ⟨i, hi⟩) = 1 →
        phaseRank (((remap cells off grains oldGrains f).2).get ⟨j, hj⟩) = 3 → i < j) ∧
      (phaseRank (((remap cells off grains oldGrains f).2).get ⟨i, hi⟩) = 2 →
        phaseRank (((remap cells off grains oldGrains f).2).get ⟨j, hj⟩) = 1 → j < i) := by
  have hsorted : (((remap cells off grains oldGrains f).2).map phaseRank).Pairwise (· ≤ ·) :=
    remapSchedule_rank_sorted off (disappearedGrains grains oldGrains) _ _
  have hrel : ∀ (a b : ℕ) (ha : a < ((remap cells off grains oldGrains f).2).length)
      (hb : b < ((remap cells off grains oldGrains f).2).length), a < b →
      phaseRank (((remap cells off grains oldGrains f).2).get ⟨a, ha⟩) ≤
        phaseRank (((remap cells off grains oldGrains f).2).get ⟨b, hb⟩) := by
    intro a b ha hb hab
    have hlen : ((remap cells off grains oldGrains f).2).length =
        (((remap cells off grains oldGrains f).2).map phaseRank).length := by
      simp
    have h := List.pairwise_iff_get.mp hsorted ⟨a, hlen ▸ ha⟩ ⟨b, hlen ▸ hb⟩ hab
    simpa using h
  intro i j hi hj
  constructor
  · intro h1 h3
    by_contra hlt
    push_neg at hlt
    rcases Nat.lt_or_ge j i with hji | hij
    · have := hrel j i hj hi hji
      rw [h1, h3] at this
      omega
    · have hje : j = i := le_antisymm hlt hij
      subst hje
      exact absurd (h1.symm.trans h3) (by norm_num)
  · intro h2 h1
    by_contra hlt
    push_neg at hlt
    rcases Nat.lt_or_ge i j with hij | hji
    · have := hrel i j hi hj hij
      rw [h1, h2] at this
      omega
    · have hje : i = j := le_antisymm hlt hji
      subst hje
      exact absurd (h2.symm.trans h1) (by norm_num)

/-- Distance evaluation for the standard witness geometry (one segment of
radius 1 at the origin on both grains). -/
theorem wGeom_distance (a b : Grain) (ha : a.segments = [⟨0, 1⟩])
    (hb : b.segments = [⟨0, 1⟩]) :
    Grain.distance a b = ((-2 : ℚ) : WithTop ℚ) := by
  unfold Grain.distance
  rw [ha, hb]
  show min ⊤ ((Segment.distance ⟨0, 1⟩ ⟨0, 1⟩ : ℚ) : WithTop ℚ) = ((-2 : ℚ) : WithTop ℚ)
  rw [min_eq_right le_top, WithTop.coe_eq_coe]
  norm_num [Segment.distance]

/-- Transfer-buffer evaluation for the standard witness geometry
(cached neighbor distance 2). -/
theorem wGeom_buffer (a : Grain)
    (hd : a.distance_to_nearest_neighbor = ((2 : ℚ) : WithTop ℚ)) :
    a.transfer_buffer = ((1 : ℚ) : WithTop ℚ) := by
  unfold Grain.transfer_buffer
  rw [hd, WithTop.map_coe, WithTop.coe_eq_coe]
  norm_num

/-- Overlap holds for the standard witness geometry. -/
theorem wGeom_overlap (a b : Grain) (ha : a.segments = [⟨0, 1⟩])
    (hb : b.segments = [⟨0, 1⟩])
    (hda : a.distance_to_nearest_neighbor = ((2 : ℚ) : WithTop ℚ))
    (hdb : b.distance_to_nearest_neighbor = ((2 : ℚ) : WithTop ℚ)) :
    hasOverlap a b := by
  unfold hasOverlap
  rw [wGeom_distance a b ha hb, wGeom_buffer a hda, wGeom_buffer b hdb, ← WithTop.coe_add,
    WithTop.coe_lt_coe]
  norm_num

/-- The origin cell lies in the buffer of a standard witness grain. -/
theorem wGeom_inBuffer (a : Grain) (ha : a.segments = [⟨0, 1⟩])
    (hda : a.distance_to_nearest_neighbor = ((2 : ℚ) : WithTop ℚ)) :
    inBuffer a 0 = true := by
  unfold inBuffer
  rw [ha]
  simp only [List.any_cons, List.any_nil, Bool.or_false, decide_eq_true_eq]
  rw [wGeom_buffer a hda]
  show ((|(0 : ℚ) - 0| : ℚ) : WithTop ℚ) < ((1 : ℚ) : WithTop ℚ) + ((1 : ℚ) : WithTop ℚ)
  rw [← WithTop.coe_add, WithTop.coe_lt_coe]
  norm_num

/-- Evaluation of the chain scenario: remapping `wGrainH` 0→1 and
`wGrainG` 1→2 with overlapping buffers is rearranged to run `wGrainG`
first, after which channel 1 at the shared cell holds `wGrainH`'s value 5. -/
theorem remap_chain_eval :
    (remap [0] 0 [wGrainH, wGrainG] [wGrainH, wGrainG] wField0).1 1 0 = 5 ∧
    wGrainG.order_parameter_id ≠ wGrainG.old_order_parameter_id ∧
    inBuffer wGrainG 0 = true := by
  have hga0 : grainsAt [wGrainH, wGrainG] 0 = wGrainH := rfl
  have hga1 : grainsAt [wGrainH, wGrainG] 1 = wGrainG := rfl
  have hovHG : hasOverlap wGrainH wGrainG := wGeom_overlap _ _ rfl rfl rfl rfl
  have hibH : inBuffer wGrainH 0 = true := wGeom_inBuffer _ rfl rfl
  have hibG : inBuffer wGrainG 0 = true := wGeom_inBuffer _ rfl rfl
  have hdep01 : dependsOn [wGrainH, wGrainG] ⟨0, 0, 1⟩ ⟨1, 1, 2⟩ = true := by
    simp [dependsOn, hga0, hga1, hovHG]
  have hdep10 : dependsOn [wGrainH, wGrainG] ⟨1, 1, 2⟩ ⟨0, 0, 1⟩ = false := by
    simp [dependsOn, hga0, hga1]
  have hdep00 : dependsOn [wGrainH, wGrainG] ⟨0, 0, 1⟩ ⟨0, 0, 1⟩ = false := by
    simp [dependsOn]
  have hdep11 : dependsOn [wGrainH, wGrainG] ⟨1, 1, 2⟩ ⟨1, 1, 2⟩ = false := by
    simp [dependsOn]
  have hrs : buildRemappings [wGrainH, wGrainG] =
      [(⟨0, 0, 1⟩ : Remapping), ⟨1, 1, 2⟩] := rfl
  have hcy0 : inCycle [wGrainH, wGrainG] [⟨0, 0, 1⟩, ⟨1, 1, 2⟩] ⟨0, 0, 1⟩ = false := by
    simp [inCycle, reachIter, hdep01, hdep10, hdep00, hdep11, List.filter]
  have hcy1 : inCycle [wGrainH, wGrainG] [⟨0, 0, 1⟩, ⟨1, 1, 2⟩] ⟨1, 1, 2⟩ = false := by
    simp [inCycle, reachIter, hdep01, hdep10, hdep00, hdep11, List.filter]
  have hre : rearrange [wGrainH, wGrainG] 3 [⟨0, 0, 1⟩, ⟨1, 1, 2⟩] =
      [(⟨1, 1, 2⟩ : Remapping), ⟨0, 0, 1⟩] := by
    simp [rearrange, hdep01, hdep10, hdep00, hdep11, List.filter, List.any]
  have hvt : List.filter
      (fun r => inCycle [wGrainH, wGrainG] [⟨0, 0, 1⟩, ⟨1, 1, 2⟩] r)
      [(⟨0, 0, 1⟩ : Remapping), ⟨1, 1, 2⟩] = [] := by
    simp [hcy0, hcy1]
  have hvd : List.filter
      (fun r => !(inCycle [wGrainH, wGrainG] [⟨0, 0, 1⟩, ⟨1, 1, 2⟩] r))
      [(⟨0, 0, 1⟩ : Remapping), ⟨1, 1, 2⟩] = [⟨0, 0, 1⟩, ⟨1, 1, 2⟩] := by
    simp [hcy0, hcy1]
  refine ⟨?_, by norm_num [wGrainG], hibG⟩
  show (remap [0] 0 [wGrainH, wGrainG] [wGrainH, wGrainG] wField0).1 1 0 = 5
  rw [remap, hrs, hvt, hvd]
  show doMoves [0] 0 [wGrainH, wGrainG]
      (rearrange [wGrainH, wGrainG] 3 [⟨0, 0, 1⟩, ⟨1, 1, 2⟩]) wField0 1 0 = 5
  rw [hre]
  show zeroChan [0] (grainsAt [wGrainH, wGrainG] 0) 0
      (copyChan [0] (grainsAt [wGrainH, wGrainG] 0) 0 1
        (zeroChan [0] (grainsAt [wGrainH, wGrainG] 1) 1
          (copyChan [0] (grainsAt [wGrainH, wGrainG] 1) 1 2 wField0))) 1 0 = 5
  rw [hga0, hga1]
  simp only [zeroChan, copyChan]
  norm_num [hibH, hibG, wField0]

/-! ### Claim C3: the state of the old channel after `remap` -/

/-- Zeroing a channel never makes a zero cell nonzero. -/
theorem zeroChan_preserve (cells : List ℚ) (G : Grain) (b c x : ℕ) (f : FieldV)
    (h : f c x = 0) : zeroChan cells G b f c x = 0 := by
  simp only [zeroChan]
  split
  · rfl
  · exact h

/-- Zeroing channel `b` inside the grain's buffer produces zero there. -/
theorem zeroChan_sets (cells : List ℚ) (G : Grain) (b c x : ℕ) (f : FieldV)
    (hc : c = b) (hx : x < cells.length) (hb : inBuffer G (cells.getD x 0) = true) :
    zeroChan cells G b f c x = 0 := by
  simp only [zeroChan]
  rw [if_pos ⟨hc, hx, hb⟩]

/-- A channel copy preserves a zero cell of channel `c` provided the
destination is not `c` inside the buffer at that cell. -/
theorem copyChan_preserve (cells : List ℚ) (G : Grain) (src dst c x : ℕ) (f : FieldV)
    (h : f c x = 0) (hnb : dst = c → inBuffer G (cells.getD x 0) = false) :
    copyChan cells G src dst f c x = 0 := by
  simp only [copyChan]
  split
  · rename_i hcond
    rw [hnb hcond.1.symm] at hcond
    exact absurd hcond.2.2 (by simp)
  · exact h

/-- A refill copy preserves a zero cell of channel `c` provided the
destination is not `c` inside the buffer at that cell. -/
theorem copyFromTemp_preserve (cells : List ℚ) (G : Grain) (slot dst c x : ℕ)
    (t : TempV) (f : FieldV) (h : f c x = 0)
    (hnb : dst = c → inBuffer G (cells.getD x 0) = false) :
    copyFromTemp cells G slot dst t f c x = 0 := by
  simp only [copyFromTemp]
  split
  · rename_i hcond
    rw [hnb hcond.1.symm] at hcond
    exact absurd hcond.2.2 (by simp)
  · exact h

/-- The direct-move phase preserves a zero cell of channel `c` when no
remaining remapping writes into `c` at that cell. -/
theorem doMoves_preserve (cells : List ℚ) (off : ℕ) (gs : List Grain) (c x : ℕ) :
    ∀ (rs : List Remapping) (f : FieldV), f c x = 0 →
      (∀ r, r ∈ rs → r.to_ + off = c →
        inBuffer (grainsAt gs r.grain_id) (cells.getD x 0) = false) →
      doMoves cells off gs rs f c x = 0 := by
  intro rs
  induction rs with
  | nil => intro f h _; exact h
  | cons r rs ih =>
    intro f h hx
    show doMoves cells off gs rs
      (zeroChan cells (grainsAt gs r.grain_id) (r.from_ + off)
        (copyChan cells (grainsAt gs r.grain_id) (r.from_ + off) (r.to_ + off) f)) c x = 0
    refine ih _ ?_ (fun r2 hr2 => hx r2 (List.mem_cons_of_mem _ hr2))
    exact zeroChan_preserve _ _ _ _ _ _
      (copyChan_preserve _ _ _ _ _ _ _ h (hx r (List.mem_cons_self _ _)))

/-- Executing the direct moves zeroes channel `rg.from_ + off` inside the
buffer of `rg`'s grain, and the cell stays zero when no later remapping
writes into that channel there. -/
theorem doMoves_establish (cells : List ℚ) (off : ℕ) (gs : List Grain) (c x : ℕ)
    (rs : List Remapping) (rg : Remapping) (f : FieldV)
    (hmem : rg ∈ rs) (hc : rg.from_ + off = c) (hxlen : x < cells.length)
    (hbuf : inBuffer (grainsAt gs rg.grain_id) (cells.getD x 0) = true)
    (hexcl : ∀ r, r ∈ rs → r.to_ + off = c →
      inBuffer (grainsAt gs r.grain_id) (cells.getD x 0) = false) :
    doMoves cells off gs rs f c x = 0 := by
  obtain ⟨l1, l2, rfl⟩ := List.append_of_mem hmem
  have hsplit : doMoves cells off gs (l1 ++ rg :: l2) f =
      doMoves cells off gs l2
        (zeroChan cells (grainsAt gs rg.grain_id) (rg.from_ + off)
          (copyChan cells (grainsAt gs rg.grain_id) (rg.from_ + off) (rg.to_ + off)
            (doMoves cells off gs l1 f))) := by
    unfold doMoves
    rw [List.foldl_append, List.foldl_cons]
  rw [hsplit]
  refine doMoves_preserve cells off gs c x l2 _ ?_ ?_
  · exact zeroChan_sets _ _ _ _ _ _ hc.symm hxlen hbuf
  · intro r2 hr2 hto
    exact hexcl r2 (List.mem_append_right _ (List.mem_cons_of_mem _ hr2)) hto

/-- The drain phase only zeroes field channels (its copies write temp
slots), so it preserves a zero cell of any channel. -/
theorem drainFold_preserve (cells : List ℚ) (off : ℕ) (gs : List Grain) (c x : ℕ)
    (l : List (ℕ × Remapping)) :
    ∀ st : FieldV × TempV, st.1 c x = 0 →
      (l.foldl (fun acc sr =>
        let g := grainsAt gs sr.2.grain_id
        let t2 := copyToTemp cells g (sr.2.from_ + off) sr.1 acc.1 acc.2
        (zeroChan cells g (sr.2.from_ + off) acc.1, t2)) st).1 c x = 0 := by
  induction l with
  | nil => intro st h; exact h
  | cons sr l ih =>
    intro st h
    rw [List.foldl_cons]
    exact ih _ (zeroChan_preserve _ _ _ _ _ _ h)

/-- The drain phase zeroes channel `rg.from_ + off` inside the buffer of
`rg`'s grain for every cycle member `rg`. -/
theorem drainFold_establish (cells : List ℚ) (off : ℕ) (gs : List Grain) (c x : ℕ)
    (l : List (ℕ × Remapping)) (rg : Remapping)
    (hc : rg.from_ + off = c) (hxlen : x < cells.length)
    (hbuf : inBuffer (grainsAt gs rg.grain_id) (cells.getD x 0) = true) :
    ∀ st : FieldV × TempV, (∃ sr, sr ∈ l ∧ sr.2 = rg) →
      (l.foldl (fun acc sr =>
        let g := grainsAt gs sr.2.grain_id
        let t2 := copyToTemp cells g (sr.2.from_ + off) sr.1 acc.1 acc.2
        (zeroChan cells g (sr.2.from_ + off) acc.1, t2)) st).1 c x = 0 := by
  induction l with
  | nil =>
    intro st h
    obtain ⟨sr, hsr, _⟩ := h
    exact absurd hsr (List.not_mem_nil _)
  | cons sr0 l ih =>
    intro st h
    rw [List.foldl_cons]
    obtain ⟨sr, hsr, hsr2⟩ := h
    rcases List.mem_cons.mp hsr with rfl | hmem
    · refine drainFold_preserve cells off gs c x l _ ?_
      show zeroChan cells (grainsAt gs sr.2.grain_id) (sr.2.from_ + off) st.1 c x = 0
      rw [hsr2]
      exact zeroChan_sets _ _ _ _ _ _ hc.symm hxlen hbuf
    · exact ih _ ⟨sr, hmem, hsr2⟩

/-- The refill phase preserves a zero cell of channel `c` when no cycle
member refills into `c` at that cell. -/
theorem refillFold_preserve (cells : List ℚ) (off : ℕ) (gs : List Grain) (c x : ℕ)
    (t : TempV) (l : List (ℕ × Remapping)) :
    ∀ f : FieldV, f c x = 0 →
      (∀ sr, sr ∈ l → sr.2.to_ + off = c →
        inBuffer (grainsAt gs sr.2.grain_id) (cells.getD x 0) = false) →
      (l.foldl (fun acc sr =>
        let g := grainsAt gs sr.2.grain_id
        copyFromTemp cells g sr.1 (sr.2.to_ + off) t acc) f) c x = 0 := by
  induction l with
  | nil => intro f h _; exact h
  | cons sr l ih =>
    intro f h hx
    rw [List.foldl_cons]
    refine ih _ ?_ (fun sr2 hsr2 => hx sr2 (List.mem_cons_of_mem _ hsr2))
    exact copyFromTemp_preserve _ _ _ _ _ _ _ _ h (hx sr (List.mem_cons_self _ _))

/-- The disappearance phase only zeroes, so it preserves a zero cell; and
it cannot make a cell nonzero in any channel: the value it produces at any
point is either zero or the input value. -/
theorem doDisappear_cases (cells : List ℚ) (off : ℕ) (c x : ℕ) :
    ∀ (dis : List Grain) (f : FieldV),
      doDisappear cells off dis f c x = 0 ∨ doDisappear cells off dis f c x = f c x := by
  intro dis
  induction dis with
  | nil => intro f; exact Or.inr rfl
  | cons g dis ih =>
    intro f
    show doDisappear cells off dis (zeroChan cells g (g.order_parameter_id + off) f) c x = 0 ∨
      doDisappear cells off dis (zeroChan cells g (g.order_parameter_id + off) f) c x = f c x
    rcases ih (zeroChan cells g (g.order_parameter_id + off) f) with h | h
    · exact Or.inl h
    · rw [h]
      simp only [zeroChan]
      split
      · exact Or.inl rfl
      · exact Or.inr rfl

/-- Membership is preserved by the spec-modelled `rearrange`. -/
theorem rearrange_mem (gs : List Grain) :
    ∀ (fuel : ℕ) (rs : List Remapping) (r : Remapping),
      r ∈ rearrange gs fuel rs ↔ r ∈ rs := by
  intro fuel
  induction fuel with
  | zero => intro rs r; rfl
  | succ fuel ih =>
    intro rs r
    rw [rearrange]
    split
    · rfl
    · rw [List.mem_append, ih]
      constructor
      · rintro (h | h)
        · exact List.mem_of_mem_filter h
        · exact List.mem_of_mem_filter h
      · intro h
        by_cases hr : r ∈ rs.filter
            (fun r2 => !(rs.any (fun s => decide (s ≠ r2) && dependsOn gs r2 s)))
        · exact Or.inl hr
        · refine Or.inr (List.mem_filter.mpr ⟨h, ?_⟩)
          rw [Bool.not_eq_true', List.any_eq_false]
          intro s hs
          simp only [decide_eq_true_eq]
          intro hsr
          exact hr (hsr ▸ hs)

/-- Every remapping of the pending list comes from a grain of the map whose
order parameter changed. -/
theorem mem_buildRemappings (grains : List Grain) (r : Remapping)
    (h : r ∈ buildRemappings grains) :
    ∃ g, g ∈ grains ∧ g.order_parameter_id ≠ g.old_order_parameter_id ∧
      r = ⟨g.grain_id, g.old_order_parameter_id, g.order_parameter_id⟩ := by
  unfold buildRemappings at h
  obtain ⟨g, hg, rfl⟩ := List.mem_map.mp h
  obtain ⟨hg2, hg3⟩ := List.mem_filter.mp hg
  exact ⟨g, hg2, by simpa using hg3, rfl⟩

/-- Claim C3 amended: after `remap`, for every grain whose order parameter
changed, every cell of its buffer zone holds exactly zero in the grain's
old channel — except where the buffer of another remapped grain whose NEW
channel equals this grain's old channel overlaps, since that grain's data
legitimately moves in there (the exclusion hypothesis `hexcl` rules such
cells out). -/
theorem remap_zeroes_old_channel (cells : List ℚ) (off : ℕ)
    (grains oldGrains : List Grain) (f : FieldV) (g : Grain) (x : ℕ)
    (hfind : ∀ h, h ∈ grains → grainsAt grains h.grain_id = h)
    (hg : g ∈ grains)
    (hch : g.order_parameter_id ≠ g.old_order_parameter_id)
    (hxlen : x < cells.length)
    (hx : inBuffer g (cells.getD x 0) = true)
    (hexcl : ∀ h, h ∈ grains → h.grain_id ≠ g.grain_id →
      h.order_parameter_id ≠ h.old_order_parameter_id →
      h.order_parameter_id = g.old_order_parameter_id →
      inBuffer h (cells.getD x 0) = false) :
    (remap cells off grains oldGrains f).1 (g.old_order_parameter_id + off) x = 0 := by
  set c := g.old_order_parameter_id + off with hcdef
  set rs := buildRemappings grains with hrsdef
  set rg : Remapping :=
    ⟨g.grain_id, g.old_order_parameter_id, g.order_parameter_id⟩ with hrgdef
  have hrgmem : rg ∈ rs := by
    rw [hrsdef]
    unfold buildRemappings
    refine List.mem_map.mpr ⟨g, List.mem_filter.mpr ⟨hg, by simpa using hch⟩, rfl⟩
  have hgat : grainsAt grains rg.grain_id = g := hfind g hg
  -- the global write-exclusion for channel c
  have hprot : ∀ r, r ∈ rs → r.to_ + off = c →
      inBuffer (grainsAt grains r.grain_id) (cells.getD x 0) = false := by
    intro r hr hto
    obtain ⟨h, hh, hch2, rfl⟩ := mem_buildRemappings grains r hr
    have hop : h.order_parameter_id = g.old_order_parameter_id := by
      have := Nat.add_right_cancel hto
      exact this
    rw [hfind h hh]
    by_cases hid : h.grain_id = g.grain_id
    · exfalso
      have : h = g := by
        have h1 := hfind h hh
        have h2 := hfind g hg
        rw [hid] at h1
        rw [h2] at h1
        exact h1.symm
      rw [this] at hop
      exact hch hop
    · exact hexcl h hh hid hch2 hop
  have hbufg : inBuffer (grainsAt grains rg.grain_id) (cells.getD x 0) = true := by
    rw [hgat]; exact hx
  have hcfrom : rg.from_ + off = c := rfl
  -- unfold the pipeline
  show (doRefill cells off grains (rs.filter (fun r => inCycle grains rs r))
      (doMoves cells off grains
        (rearrange grains
          ((rs.filter (fun r => !(inCycle grains rs r))).length + 1)
          (rs.filter (fun r => !(inCycle grains rs r))))
        (doDrain cells off grains (rs.filter (fun r => inCycle grains rs r))
          (doDisappear cells off (disappearedGrains grains oldGrains) f, fun _ _ => 0)).1,
        (doDrain cells off grains (rs.filter (fun r => inCycle grains rs r))
          (doDisappear cells off (disappearedGrains grains oldGrains) f, fun _ _ => 0)).2))
      c x = 0
  have hvtsub : ∀ r, r ∈ rs.filter (fun r => inCycle grains rs r) → r ∈ rs :=
    fun r hr => List.mem_of_mem_filter hr
  have hdirsub : ∀ r,
      r ∈ rearrange grains ((rs.filter (fun r => !(inCycle grains rs r))).length + 1)
        (rs.filter (fun r => !(inCycle grains rs r))) → r ∈ rs := by
    intro r hr
    exact List.mem_of_mem_filter ((rearrange_mem grains _ _ r).mp hr)
  -- the moves phase output is zero at (c, x)
  have hmoves : ∀ f2 : FieldV,
      (rg ∈ rearrange grains ((rs.filter (fun r => !(inCycle grains rs r))).length + 1)
          (rs.filter (fun r => !(inCycle grains rs r))) →
        doMoves cells off grains
          (rearrange grains ((rs.filter (fun r => !(inCycle grains rs r))).length + 1)
            (rs.filter (fun r => !(inCycle grains rs r)))) f2 c x = 0) ∧
      (f2 c x = 0 →
        doMoves cells off grains
          (rearrange grains ((rs.filter (fun r => !(inCycle grains rs r))).length + 1)
            (rs.filter (fun r => !(inCycle grains rs r)))) f2 c x = 0) := by
    intro f2
    constructor
    · intro hmem
      exact doMoves_establish cells off grains c x _ rg f2 hmem hcfrom hxlen hbufg
        (fun r hr => hprot r (hdirsub r hr))
    · intro h0
      exact doMoves_preserve cells off grains c x _ f2 h0
        (fun r hr => hprot r (hdirsub r hr))
  -- case split on where rg executes
  by_cases hcy : rg ∈ rs.filter (fun r => inCycle grains rs r)
  · -- drained to temp: the drain zeroes c in g's buffer
    have hdrain : (doDrain cells off grains (rs.filter (fun r => inCycle grains rs r))
        (doDisappear cells off (disappearedGrains grains oldGrains) f, fun _ _ => 0)).1
        c x = 0 := by
      unfold doDrain
      refine drainFold_establish cells off grains c x _ rg hcfrom hxlen hbufg _ ?_
      obtain ⟨n, hn, hget⟩ := List.mem_iff_getElem.mp hcy
      refine List.exists_mem_enum.mpr ⟨n, hn, ?_⟩
      simpa using hget
    refine refillFold_preserve cells off grains c x _ _ _
      ((hmoves _).2 hdrain) ?_
    intro sr hsr hto
    exact hprot sr.2
      (hvtsub sr.2 (List.getElem?_mem (List.mem_enum_iff_getElem?.mp hsr))) hto
  · -- direct move: rg is among the rearranged remappings
    have hdir : rg ∈ rearrange grains
        ((rs.filter (fun r => !(inCycle grains rs r))).length + 1)
        (rs.filter (fun r => !(inCycle grains rs r))) := by
      rw [rearrange_mem]
      refine List.mem_filter.mpr ⟨hrgmem, ?_⟩
      simp only [Bool.not_eq_true']
      by_contra hne
      exact hcy (List.mem_filter.mpr ⟨hrgmem, by
        revert hne
        cases inCycle grains rs rg <;> simp⟩)
    refine refillFold_preserve cells off grains c x _ _ _
      ((hmoves _).1 hdir) ?_
    intro sr hsr hto
    exact hprot sr.2
      (hvtsub sr.2 (List.getElem?_mem (List.mem_enum_iff_getElem?.mp hsr))) hto

/-- Witness for the amended C3 at the chain scenario: grain `wGrainH`
moved 0→1 and no other remapped grain targets channel 0, so after `remap`
channel 0 is zero at the shared cell inside `wGrainH`'s buffer. -/
theorem remap_zeroes_old_channel_w :
    (remap [0] 0 [wGrainH, wGrainG] [wGrainH, wGrainG] wField0).1
      (wGrainH.old_order_parameter_id + 0) 0 = 0 := by
  refine remap_zeroes_old_channel [0] 0 [wGrainH, wGrainG] [wGrainH, wGrainG] wField0
    wGrainH 0 ?_ (by simp) (by norm_num [wGrainH]) (by norm_num) ?_ ?_
  · intro h hh
    rcases (by simpa using hh : h = wGrainH ∨ h = wGrainG) with rfl | rfl <;> rfl
  · exact wGeom_inBuffer _ rfl rfl
  · intro h hh hgid hchh hops
    rcases (by simpa using hh : h = wGrainH ∨ h = wGrainG) with rfl | rfl
    · exact absurd rfl hgid
    · exact absurd hops (by norm_num [wGrainG, wGrainH])

/-- Witness for C6 at the 2-cycle scenario (`wGrainC1` 0→1, `wGrainC2`
1→0, overlapping): both remappings are drained to temp, positions 0 and 4
of the schedule are a drain copy (rank 1) and a refill copy (rank 3), and
the theorem gives 0 < 4. -/
theorem remap_phase_order_w :
    ((remap [0] 0 [wGrainC1, wGrainC2] [wGrainC1, wGrainC2] wField0).2.map phaseRank).getD 0 9
        = 1 ∧
    ((remap [0] 0 [wGrainC1, wGrainC2] [wGrainC1, wGrainC2] wField0).2.map phaseRank).getD 4 9
        = 3 ∧
    (0 : ℕ) < 4 := by
  have hga0 : grainsAt [wGrainC1, wGrainC2] 0 = wGrainC1 := rfl
  have hga1 : grainsAt [wGrainC1, wGrainC2] 1 = wGrainC2 := rfl
  have hov12 : hasOverlap wGrainC1 wGrainC2 := wGeom_overlap _ _ rfl rfl rfl rfl
  have hov21 : hasOverlap wGrainC2 wGrainC1 := wGeom_overlap _ _ rfl rfl rfl rfl
  have hdep01 : dependsOn [wGrainC1, wGrainC2] ⟨0, 0, 1⟩ ⟨1, 1, 0⟩ = true := by
    simp [dependsOn, hga0, hga1, hov12]
  have hdep10 : dependsOn [wGrainC1, wGrainC2] ⟨1, 1, 0⟩ ⟨0, 0, 1⟩ = true := by
    simp [dependsOn, hga0, hga1, hov21]
  have hdep00 : dependsOn [wGrainC1, wGrainC2] ⟨0, 0, 1⟩ ⟨0, 0, 1⟩ = false := by
    simp [dependsOn]
  have hdep11 : dependsOn [wGrainC1, wGrainC2] ⟨1, 1, 0⟩ ⟨1, 1, 0⟩ = false := by
    simp [dependsOn]
  have hrs : buildRemappings [wGrainC1, wGrainC2] =
      [(⟨0, 0, 1⟩ : Remapping), ⟨1, 1, 0⟩] := rfl
  have hcy0 : inCycle [wGrainC1, wGrainC2] [⟨0, 0, 1⟩, ⟨1, 1, 0⟩] ⟨0, 0, 1⟩ = true := by
    simp [inCycle, reachIter, hdep01, hdep10, hdep00, hdep11, List.filter]
  have hcy1 : inCycle [wGrainC1, wGrainC2] [⟨0, 0, 1⟩, ⟨1, 1, 0⟩] ⟨1, 1, 0⟩ = true := by
    simp [inCycle, reachIter, hdep01, hdep10, hdep00, hdep11, List.filter]
  have hvt : List.filter
      (fun r => inCycle [wGrainC1, wGrainC2] [⟨0, 0, 1⟩, ⟨1, 1, 0⟩] r)
      [(⟨0, 0, 1⟩ : Remapping), ⟨1, 1, 0⟩] = [⟨0, 0, 1⟩, ⟨1, 1, 0⟩] := by
    simp [hcy0, hcy1]
  have hvd : List.filter
      (fun r => !(inCycle [wGrainC1, wGrainC2] [⟨0, 0, 1⟩, ⟨1, 1, 0⟩] r))
      [(⟨0, 0, 1⟩ : Remapping), ⟨1, 1, 0⟩] = [] := by
    simp [hcy0, hcy1]
  have hteq : (remap [0] 0 [wGrainC1, wGrainC2] [wGrainC1, wGrainC2] wField0).2 =
      remapSchedule 0 [] [(⟨0, 0, 1⟩ : Remapping), ⟨1, 1, 0⟩] [] := by
    rw [remap, hrs, hvt, hvd]
    rfl
  have h0 : 0 < ((remap [0] 0 [wGrainC1, wGrainC2] [wGrainC1, wGrainC2] wField0).2).length := by
    rw [hteq]; decide
  have h4 : 4 < ((remap [0] 0 [wGrainC1, wGrainC2] [wGrainC1, wGrainC2] wField0).2).length := by
    rw [hteq]; decide
  have e1 : phaseRank
      (((remap [0] 0 [wGrainC1, wGrainC2] [wGrainC1, wGrainC2] wField0).2).get ⟨0, h0⟩) = 1 := by
    rw [List.get_of_eq hteq]; rfl
  have e3 : phaseRank
      (((remap [0] 0 [wGrainC1, wGrainC2] [wGrainC1, wGrainC2] wField0).2).get ⟨4, h4⟩) = 3 := by
    rw [List.get_of_eq hteq]; rfl
  refine ⟨by rw [hteq]; rfl, by rw [hteq]; rfl, ?_⟩
  exact (remap_phase_order [0] 0 [wGrainC1, wGrainC2] [wGrainC1, wGrainC2] wField0
    0 4 h0 h4).1 e1 e3

/-! ### Claim C2: coloring validity of `reassign_grains` -/

/-- In a strictly sorted list of naturals each entry dominates its index. -/
theorem get_ge_of_sorted_lt (l : List ℕ) (hs : l.Sorted (· < ·)) :
    ∀ (k : ℕ) (hk : k < l.length), k ≤ l.get ⟨k, hk⟩ := by
  intro k
  induction k with
  | zero => intro hk; exact Nat.zero_le _
  | succ k ih =>
    intro hk
    have hk2 : k < l.length := Nat.lt_of_succ_lt hk
    have h1 := ih hk2
    have h2 : l.get ⟨k, hk2⟩ < l.get ⟨k + 1, hk⟩ :=
      List.pairwise_iff_get.mp hs ⟨k, hk2⟩ ⟨k + 1, hk⟩ (by simp)
    omega

/-- The sorted active order parameter list is strictly sorted. -/
theorem activeOps_sorted_lt (mm : List (ℕ × Grain)) : (activeOps mm).Sorted (· < ·) :=
  (Finset.sort_sorted _ _).lt_of_le (Finset.sort_nodup _ _)

/-- An active order parameter dominates its position in the sorted list. -/
theorem indexOf_le_self_activeOps (mm : List (ℕ × Grain)) (op : ℕ)
    (h : op ∈ activeOps mm) : (activeOps mm).indexOf op ≤ op := by
  have hlt : (activeOps mm).indexOf op < (activeOps mm).length :=
    List.indexOf_lt_length.mpr h
  have h2 := get_ge_of_sorted_lt _ (activeOps_sorted_lt mm) _ hlt
  rw [List.indexOf_get hlt] at h2
  exact h2

/-- The compaction map is injective on active order parameters. -/
theorem cmapOps_inj (mm : List (ℕ × Grain)) (a b : ℕ)
    (ha : a ∈ activeOps mm) (hb : b ∈ activeOps mm)
    (h : cmapOps mm a = cmapOps mm b) : a = b := by
  unfold cmapOps at h
  simp only [] at h
  by_cases hsh : (activeOps mm).getLast?.getD 0 > (activeOps mm).length - 1
  · rw [if_pos hsh, if_pos hsh] at h
    have hia := indexOf_le_self_activeOps mm a ha
    have hib := indexOf_le_self_activeOps mm b hb
    have ea : (if a - (activeOps mm).indexOf a > 0 then
        a - (a - (activeOps mm).indexOf a) else a) = (activeOps mm).indexOf a := by
      split <;> omega
    have eb : (if b - (activeOps mm).indexOf b > 0 then
        b - (b - (activeOps mm).indexOf b) else b) = (activeOps mm).indexOf b := by
      split <;> omega
    rw [ea, eb] at h
    have h1 := List.indexOf_get (List.indexOf_lt_length.mpr ha)
    have h2 := List.indexOf_get (List.indexOf_lt_length.mpr hb)
    rw [← h1, ← h2]
    congr 1
    exact Fin.ext h
  · rw [if_neg hsh, if_neg hsh] at h
    exact h

/-- The order parameter of every map entry is active. -/
theorem op_mem_activeOps (mm : List (ℕ × Grain)) (i : ℕ) (hi : i < mm.length) :
    (mm.get ⟨i, hi⟩).2.order_parameter_id ∈ activeOps mm := by
  unfold activeOps
  rw [Finset.mem_sort, List.mem_toFinset]
  exact List.mem_map.mpr ⟨mm.get ⟨i, hi⟩, List.get_mem _ _ _, rfl⟩

/-- Entrywise description of `compactOps`. -/
theorem compactOps_get (mm : List (ℕ × Grain)) (i : ℕ) (hi : i < mm.length) :
    ∃ hi2 : i < (compactOps mm).length,
      ((compactOps mm).get ⟨i, hi2⟩).2.order_parameter_id =
        cmapOps mm ((mm.get ⟨i, hi⟩).2.order_parameter_id) := by
  by_cases hsh : (activeOps mm).getLast?.getD 0 > (activeOps mm).length - 1
  · have hC : compactOps mm = mm.map (fun p =>
        if p.2.order_parameter_id - (activeOps mm).indexOf p.2.order_parameter_id > 0 then
          (p.1,
            { p.2 with
              order_parameter_id :=
                p.2.order_parameter_id -
                  (p.2.order_parameter_id -
                    (activeOps mm).indexOf p.2.order_parameter_id) })
        else p) := by
      simp only [compactOps]
      rw [if_pos hsh]
    have hi2 : i < (compactOps mm).length := by rw [hC]; simpa using hi
    refine ⟨hi2, ?_⟩
    rw [List.get_of_eq hC, List.get_map]
    simp only [cmapOps]
    rw [if_pos hsh]
    by_cases hoff : (mm.get ⟨i, hi⟩).2.order_parameter_id -
        (activeOps mm).indexOf (mm.get ⟨i, hi⟩).2.order_parameter_id > 0
    · rw [if_pos hoff, if_pos hoff]
    · rw [if_neg hoff, if_neg hoff]
  · have hC : compactOps mm = mm := by
      simp only [compactOps]
      rw [if_neg hsh]
    have hi2 : i < (compactOps mm).length := by rw [hC]; exact hi
    refine ⟨hi2, ?_⟩
    rw [List.get_of_eq hC]
    simp only [cmapOps]
    rw [if_neg hsh]

/-- Entrywise description of `updateNeighbors`: keys and order parameters
are untouched (only the neighbor-distance cache changes). -/
theorem updateNeighbors_get (mm : List (ℕ × Grain)) (i : ℕ) (hi : i < mm.length) :
    ∃ hi2 : i < (updateNeighbors mm).length,
      ((updateNeighbors mm).get ⟨i, hi2⟩).1 = (mm.get ⟨i, hi⟩).1 ∧
      ((updateNeighbors mm).get ⟨i, hi2⟩).2.order_parameter_id =
        (mm.get ⟨i, hi⟩).2.order_parameter_id := by
  refine ⟨by simpa [updateNeighbors] using hi, ?_, ?_⟩
  · unfold updateNeighbors
    rw [List.get_map]
  · unfold updateNeighbors
    rw [List.get_map]

/-- Entrywise description of `applyColoring`: entry `i` keeps its key and
gets order parameter `coloring i - 1`. -/
theorem applyColoring_get (coloring : ℕ → ℕ) (m : List (ℕ × Grain)) (i : ℕ)
    (hi : i < m.length) :
    ∃ hi2 : i < (applyColoring coloring m).length,
      ((applyColoring coloring m).get ⟨i, hi2⟩).1 = (m.get ⟨i, hi⟩).1 ∧
      ((applyColoring coloring m).get ⟨i, hi2⟩).2.order_parameter_id = coloring i - 1 := by
  refine ⟨by simpa [applyColoring] using hi, ?_, ?_⟩
  · unfold applyColoring
    rw [List.get_map, List.get_enum]
    rfl
  · unfold applyColoring
    rw [List.get_map, List.get_enum]

/-- A close pair of distinct keys on the same order parameter makes
`overlap_detected` fire. -/
theorem overlapDetected_of_pair (coeff : ℚ) (force : Bool) (m : List (ℕ × Grain))
    (i j : ℕ) (hi : i < m.length) (hj : j < m.length)
    (hne : (m.get ⟨i, hi⟩).1 ≠ (m.get ⟨j, hj⟩).1)
    (hclose : closeGrains coeff (m.get ⟨i, hi⟩).2 (m.get ⟨j, hj⟩).2)
    (hsame : (m.get ⟨j, hj⟩).2.order_parameter_id =
      (m.get ⟨i, hi⟩).2.order_parameter_id) :
    overlapDetected coeff force m = true := by
  unfold overlapDetected
  rw [Bool.or_eq_true]
  right
  rw [List.any_eq_true]
  refine ⟨m.get ⟨i, hi⟩, List.get_mem _ _ _, ?_⟩
  rw [List.any_eq_true]
  refine ⟨m.get ⟨j, hj⟩, List.get_mem _ _ _, ?_⟩
  simp only [Bool.and_eq_true, decide_eq_true_eq]
  exact ⟨⟨hne.symm, hclose⟩, hsame⟩

/-- A successful `reassign_grains` returns the compaction of the
neighbor-updated, possibly recolored map. -/
theorem reassign_ok_shape (coeff : ℚ) (maxN : ℕ) (force : Bool) (coloring : ℕ → ℕ)
    (nColors : ℕ) (m m2 : List (ℕ × Grain))
    (hok : reassign_grains coeff maxN force coloring nColors m = Except.ok m2) :
    m2 = compactOps (updateNeighbors
      (if overlapDetected coeff force m then applyColoring coloring m else m)) := by
  by_cases hod : overlapDetected coeff force m = true
  · rw [if_pos hod]
    simp only [reassign_grains] at hok
    simp only [if_pos hod] at hok
    split at hok
    · exact absurd hok (by simp)
    · split at hok
      · exact absurd hok (by simp)
      · split at hok
        · exact absurd hok (by simp)
        · exact (Except.ok.inj hok).symm
  · rw [if_neg hod]
    simp only [reassign_grains] at hok
    simp only [if_neg hod] at hok
    split at hok
    · exact absurd hok (by simp)
    · split at hok
      · exact absurd hok (by simp)
      · split at hok
        · exact absurd hok (by simp)
        · exact (Except.ok.inj hok).symm

/-- The two witness grains are close: distance -1 below buffer sum 2. -/
theorem wC2_close : closeGrains 1 wC2gA wC2gB := by
  unfold closeGrains
  show min ⊤ ((Segment.distance ⟨0, 1⟩ ⟨1, 1⟩ : ℚ) : WithTop ℚ) <
      ((1 * wC2gA.max_radius + 1 * wC2gB.max_radius : ℚ) : WithTop ℚ)
  rw [min_eq_right le_top, WithTop.coe_lt_coe]
  norm_num [Segment.distance, wC2gA, wC2gB]

/-- Overlap detection fires on the witness map. -/
theorem wC2_od : overlapDetected 1 false wC2m = true := by
  unfold overlapDetected
  rw [Bool.or_eq_true]
  right
  rw [List.any_eq_true]
  refine ⟨(0, wC2gA), by simp [wC2m], ?_⟩
  rw [List.any_eq_true]
  refine ⟨(1, wC2gB), by simp [wC2m], ?_⟩
  simp only [Bool.and_eq_true, decide_eq_true_eq]
  exact ⟨⟨by decide, wC2_close⟩, rfl⟩

/-- Evaluating the coloring pass on the witness map. -/
theorem wC2_apply :
    applyColoring (fun i => i + 1) wC2m = [(0, wC2gA), (1, wC2gB2)] := rfl

/-- Evaluating the neighbor pass on the colored witness map. -/
theorem wC2_upd : updateNeighbors [(0, wC2gA), (1, wC2gB2)] = wC2m2 := by
  unfold updateNeighbors wC2m2 wC2gA wC2gB2 wC2gA3 wC2gB3
  norm_num [Grain.distance, Segment.distance, Grain.mk.injEq, min_eq_right le_top]
  show ((1 : ℚ) : WithTop ℚ) - ((1 : ℚ) : WithTop ℚ) - ((1 : ℚ) : WithTop ℚ) =
      ((-1 : ℚ) : WithTop ℚ)
  rw [← WithTop.LinearOrderedAddCommGroup.coe_sub,
    ← WithTop.LinearOrderedAddCommGroup.coe_sub, WithTop.coe_eq_coe]
  norm_num

/-- Full evaluation of `reassign_grains` on the witness data. -/
theorem wC2_eval :
    reassign_grains 1 2 false (fun i => i + 1) 2 wC2m = Except.ok wC2m2 := by
  have hupd : updateNeighbors (applyColoring (fun i => i + 1) wC2m) = wC2m2 := by
    rw [wC2_apply]
    exact wC2_upd
  have h1 : (wC2m2.map (fun p => p.2.order_parameter_id)).toFinset =
      insert 0 {1} := by
    simp [wC2m2, wC2gA3, wC2gB3]
  have hs : Finset.sort (· ≤ ·) (insert 0 {1} : Finset ℕ) =
      0 :: Finset.sort (· ≤ ·) ({1} : Finset ℕ) :=
    Finset.sort_insert (· ≤ ·) (by simp) (by simp)
  have hact : activeOps wC2m2 = [0, 1] := by
    unfold activeOps
    rw [h1, hs, Finset.sort_singleton]
  simp only [reassign_grains]
  rw [wC2_od]
  rw [if_neg (by norm_num : ¬((true : Bool) = true ∧ 2 < 2))]
  rw [if_pos rfl, hupd, hact]
  show (if 1 + 1 < [0, 1].length then Except.error ReassignErr.numbering
      else Except.ok (compactOps wC2m2)) = Except.ok wC2m2
  rw [if_neg (by norm_num)]
  have hcomp : compactOps wC2m2 = wC2m2 := by
    simp only [compactOps]
    rw [hact]
    norm_num
  rw [hcomp]

/-- Claim C2: after a successful `reassign_grains`, any two distinct map
entries whose grains are closer than the sum of their buffer distances
(`buffer_distance_ratio * max_radius` each, tested through the spherical
lower-bound distance `Grain.distance`) end up with different order
parameters, provided the coloring oracle is a proper coloring of the
closeness graph with 1-based colors. -/
theorem reassign_coloring_validity (coeff : ℚ) (maxN : ℕ) (force : Bool)
    (coloring : ℕ → ℕ) (nColors : ℕ) (m m2 : List (ℕ × Grain))
    (hkeys : (m.map Prod.fst).Nodup)
    (hcol : ∀ i j (hi : i < m.length) (hj : j < m.length), i ≠ j →
      closeGrains coeff (m.get ⟨i, hi⟩).2 (m.get ⟨j, hj⟩).2 → coloring i ≠ coloring j)
    (hpos : ∀ i, i < m.length → 1 ≤ coloring i)
    (hok : reassign_grains coeff maxN force coloring nColors m = Except.ok m2) :
    ∀ i j (hi : i < m.length) (hj : j < m.length), i ≠ j →
      closeGrains coeff (m.get ⟨i, hi⟩).2 (m.get ⟨j, hj⟩).2 →
      ∃ (hi2 : i < m2.length) (hj2 : j < m2.length),
        (m2.get ⟨i, hi2⟩).2.order_parameter_id ≠
          (m2.get ⟨j, hj2⟩).2.order_parameter_id := by
  intro i j hi hj hij hclose
  have hshape := reassign_ok_shape coeff maxN force coloring nColors m m2 hok
  subst hshape
  by_cases hod : overlapDetected coeff force m = true
  · -- recolored: distinct colors, then injective compaction
    rw [if_pos hod]
    obtain ⟨hi1, _, hopi1⟩ := applyColoring_get coloring m i hi
    obtain ⟨hj1, _, hopj1⟩ := applyColoring_get coloring m j hj
    obtain ⟨hiU, _, hopiU⟩ := updateNeighbors_get (applyColoring coloring m) i hi1
    obtain ⟨hjU, _, hopjU⟩ := updateNeighbors_get (applyColoring coloring m) j hj1
    obtain ⟨hiC, hopiC⟩ := compactOps_get (updateNeighbors (applyColoring coloring m)) i hiU
    obtain ⟨hjC, hopjC⟩ := compactOps_get (updateNeighbors (applyColoring coloring m)) j hjU
    refine ⟨hiC, hjC, ?_⟩
    rw [hopiC, hopjC]
    intro hcontra
    have hmemi := op_mem_activeOps (updateNeighbors (applyColoring coloring m)) i hiU
    have hmemj := op_mem_activeOps (updateNeighbors (applyColoring coloring m)) j hjU
    have heq := cmapOps_inj _ _ _ hmemi hmemj hcontra
    rw [hopiU, hopjU, hopi1, hopj1] at heq
    have hci := hpos i hi
    have hcj := hpos j hj
    have : coloring i = coloring j := by omega
    exact hcol i j hi hj hij hclose this
  · -- not recolored: the original order parameters must already differ
    rw [if_neg hod]
    obtain ⟨hiU, _, hopiU⟩ := updateNeighbors_get m i hi
    obtain ⟨hjU, _, hopjU⟩ := updateNeighbors_get m j hj
    obtain ⟨hiC, hopiC⟩ := compactOps_get (updateNeighbors m) i hiU
    obtain ⟨hjC, hopjC⟩ := compactOps_get (updateNeighbors m) j hjU
    refine ⟨hiC, hjC, ?_⟩
    rw [hopiC, hopjC]
    intro hcontra
    have hmemi := op_mem_activeOps (updateNeighbors m) i hiU
    have hmemj := op_mem_activeOps (updateNeighbors m) j hjU
    have heq := cmapOps_inj _ _ _ hmemi hmemj hcontra
    rw [hopiU, hopjU] at heq
    have hne : (m.get ⟨i, hi⟩).1 ≠ (m.get ⟨j, hj⟩).1 := by
      intro hk
      have hinj := List.nodup_iff_injective_get.mp hkeys
      have hgi : (m.map Prod.fst).get ⟨i, by simpa using hi⟩ = (m.get ⟨i, hi⟩).1 := by
        rw [List.get_map]
      have hgj : (m.map Prod.fst).get ⟨j, by simpa using hj⟩ = (m.get ⟨j, hj⟩).1 := by
        rw [List.get_map]
      have : (⟨i, by simpa using hi⟩ : Fin (m.map Prod.fst).length) =
          ⟨j, by simpa using hj⟩ := hinj (by rw [hgi, hgj, hk])
      exact hij (by simpa using congrArg Fin.val this)
    exact hod (overlapDetected_of_pair coeff force m i j hi hj hne hclose heq.symm)

/-- Witness for the coloring-validity claim: on the two close unit grains
of `wC2m` with the proper coloring `i ↦ i + 1`, `reassign_grains` succeeds
and the grains end up on different order parameters. -/
theorem reassign_coloring_validity_w :
    ∃ (hi2 : 0 < wC2m2.length) (hj2 : 1 < wC2m2.length),
      (wC2m2.get ⟨0, hi2⟩).2.order_parameter_id ≠
        (wC2m2.get ⟨1, hj2⟩).2.order_parameter_id :=
  reassign_coloring_validity 1 2 false (fun i => i + 1) 2 wC2m wC2m2
    (by decide)
    (fun i j _ _ hij _ h => hij (Nat.succ_injective h))
    (fun i _ => Nat.le_add_left 1 i)
    wC2_eval 0 1 (by decide) (by decide) (by decide) wC2_close

/-! ### Claim C1: correctness of the distributed stitching -/

/-- A round only ever grows a connectivity list. -/
theorem round_subset (n : ℕ) (owner : ℕ → ℕ) (st : ℕ → Finset ℕ) (p : ℕ) :
    st p ⊆ round n owner st p :=
  Finset.subset_union_left

/-- A round keeps the list of a valid particle inside the valid range. -/
theorem round_range (n : ℕ) (owner : ℕ → ℕ) (st : ℕ → Finset ℕ)
    (hst : ∀ q, q < n → st q ⊆ Finset.range n) (p : ℕ) (hp : p < n) :
    round n owner st p ⊆ Finset.range n := by
  intro x hx
  simp only [round, Finset.mem_union, Finset.mem_biUnion] at hx
  rcases hx with hx | ⟨i, hi, hx⟩
  · exact hst p hp hx
  · by_cases hc : p ∈ st i ∧ owner i ≠ owner p
    · rw [if_pos hc] at hx
      rcases Finset.mem_insert.mp hx with rfl | hx
      · exact hi
      · exact hst i (Finset.mem_range.mp hi) (Finset.erase_subset _ _ hx)
    · rw [if_neg hc] at hx
      exact absurd hx (Finset.not_mem_empty x)

/-- Rounds only depend on the lists of valid particles. -/
theorem round_congr (n : ℕ) (owner : ℕ → ℕ) (st st2 : ℕ → Finset ℕ)
    (h : ∀ q, q < n → st q = st2 q) (p : ℕ) (hp : p < n) :
    round n owner st p = round n owner st2 p := by
  simp only [round]
  rw [h p hp]
  congr 1
  apply Finset.biUnion_congr rfl
  intro i hi
  rw [h i (Finset.mem_range.mp hi)]

/-- The total list size is bounded by `n²` while lists stay in range. -/
theorem stitchW_le (n : ℕ) (st : ℕ → Finset ℕ)
    (hst : ∀ q, q < n → st q ⊆ Finset.range n) : stitchW n st ≤ n * n := by
  unfold stitchW
  calc ∑ p ∈ Finset.range n, (st p).card
      ≤ ∑ _p ∈ Finset.range n, n := by
        apply Finset.sum_le_sum
        intro p hp
        have := Finset.card_le_card (hst p (Finset.mem_range.mp hp))
        simpa using this
    _ = n * n := by simp [Finset.sum_const, Finset.card_range, smul_eq_mul]

/-- A round that changes some valid list strictly increases the measure. -/
theorem stitchW_lt (n : ℕ) (owner : ℕ → ℕ) (st : ℕ → Finset ℕ)
    (h : ¬∀ p ∈ Finset.range n, round n owner st p = st p) :
    stitchW n st < stitchW n (round n owner st) := by
  push_neg at h
  obtain ⟨p0, hp0, hne⟩ := h
  unfold stitchW
  apply Finset.sum_lt_sum
  · intro i _
    exact Finset.card_le_card (round_subset n owner st i)
  · exact ⟨p0, hp0,
      Finset.card_lt_card
        ((round_subset n owner st p0).ssubset_of_ne (fun he => hne he.symm))⟩

/-- With fuel exceeding the remaining measure budget, `iterRounds` returns
a state that the next round leaves unchanged on all valid particles. -/
theorem iterRounds_fixed (n : ℕ) (owner : ℕ → ℕ) :
    ∀ (fuel : ℕ) (st : ℕ → Finset ℕ),
      (∀ q, q < n → st q ⊆ Finset.range n) →
      n * n < stitchW n st + fuel →
      ∀ p, p < n →
        round n owner (iterRounds n owner fuel st) p =
          iterRounds n owner fuel st p := by
  intro fuel
  induction fuel with
  | zero =>
    intro st hst hbud p hp
    exact absurd hbud (by have := stitchW_le n st hst; omega)
  | succ fuel ih =>
    intro st hst hbud p hp
    rw [iterRounds]
    simp only []
    by_cases hchk : ∀ p ∈ Finset.range n, round n owner st p = st p
    · rw [if_pos hchk]
      have hagree : ∀ q, q < n → round n owner st q = st q := fun q hq =>
        hchk q (Finset.mem_range.mpr hq)
      exact round_congr n owner (round n owner st) st hagree p hp
    · rw [if_neg hchk]
      exact ih (round n owner st)
        (fun q hq => round_range n owner st hst q hq)
        (by have := stitchW_lt n owner st hchk; omega) p hp

/-- Every list only grows across the consensus iteration. -/
theorem iterRounds_subset (n : ℕ) (owner : ℕ → ℕ) :
    ∀ (fuel : ℕ) (st : ℕ → Finset ℕ) (p : ℕ),
      st p ⊆ iterRounds n owner fuel st p := by
  intro fuel
  induction fuel with
  | zero =>
    intro st p
    rw [iterRounds]
  | succ fuel ih =>
    intro st p
    rw [iterRounds]
    simp only []
    by_cases hchk : ∀ p ∈ Finset.range n, round n owner st p = st p
    · rw [if_pos hchk]
      exact round_subset n owner st p
    · rw [if_neg hchk]
      exact (round_subset n owner st p).trans (ih (round n owner st) p)

/-- Properties preserved by one round are preserved by the iteration. -/
theorem iterRounds_inv (n : ℕ) (owner : ℕ → ℕ) (P : (ℕ → Finset ℕ) → Prop)
    (hP : ∀ st, P st → P (round n owner st)) :
    ∀ (fuel : ℕ) (st : ℕ → Finset ℕ), P st → P (iterRounds n owner fuel st) := by
  intro fuel
  induction fuel with
  | zero =>
    intro st h
    rw [iterRounds]
    exact h
  | succ fuel ih =>
    intro st h
    rw [iterRounds]
    show P (if ∀ p ∈ Finset.range n, round n owner st p = st p then
      round n owner st else iterRounds n owner fuel (round n owner st))
    by_cases hchk : ∀ p ∈ Finset.range n, round n owner st p = st p
    · rw [if_pos hchk]
      exact hP st h
    · rw [if_neg hchk]
      exact ih (round n owner st) (hP st h)

/-- Connectivity soundness is preserved by a round: every list entry stays
transitively connected to its particle. -/
theorem round_sound (n : ℕ) (owner : ℕ → ℕ) (st0 st : ℕ → Finset ℕ)
    (hsym : ∀ i j, j ∈ st0 i → i ∈ st0 j)
    (h : ∀ i, i < n → ∀ j ∈ st i, Connected st0 i j) :
    ∀ p, p < n → ∀ j ∈ round n owner st p, Connected st0 p j := by
  have hsymC : Symmetric (Connected st0) :=
    Relation.ReflTransGen.symmetric (fun a b hab => hsym a b hab)
  intro p hp j hj
  simp only [round, Finset.mem_union, Finset.mem_biUnion] at hj
  rcases hj with hj | ⟨i, hi, hj⟩
  · exact h p hp j hj
  · by_cases hc : p ∈ st i ∧ owner i ≠ owner p
    · rw [if_pos hc] at hj
      have hin : i < n := Finset.mem_range.mp hi
      have hpi : Connected st0 p i := hsymC (h i hin p hc.1)
      rcases Finset.mem_insert.mp hj with rfl | hj
      · exact hpi
      · exact Relation.ReflTransGen.trans hpi
          (h i hin j (Finset.erase_subset _ _ hj))
    · rw [if_neg hc] at hj
      exact absurd hj (Finset.not_mem_empty j)

/-- A round never introduces a particle into its own list. -/
theorem round_no_self (n : ℕ) (owner : ℕ → ℕ) (st : ℕ → Finset ℕ)
    (h : ∀ p, p < n → p ∉ st p) :
    ∀ p, p < n → p ∉ round n owner st p := by
  intro p hp hmem
  simp only [round, Finset.mem_union, Finset.mem_biUnion] at hmem
  rcases hmem with hmem | ⟨i, hi, hmem⟩
  · exact h p hp hmem
  · by_cases hc : p ∈ st i ∧ owner i ≠ owner p
    · rw [if_pos hc] at hmem
      rcases Finset.mem_insert.mp hmem with rfl | hmem
      · exact hc.2 rfl
      · exact absurd hmem (Finset.not_mem_erase p (st i))
    · rw [if_neg hc] at hmem
      exact absurd hmem (Finset.not_mem_empty p)

/-- The lists at the fixed point stay within the valid particle range. -/
theorem stitch_range (n : ℕ) (owner : ℕ → ℕ) (st0 : ℕ → Finset ℕ)
    (h : StitchOK n owner st0) :
    ∀ q, q < n → stitchState n owner st0 q ⊆ Finset.range n := by
  unfold stitchState
  exact iterRounds_inv n owner
    (fun st => ∀ q, q < n → st q ⊆ Finset.range n)
    (fun st hst q hq => round_range n owner st hst q hq)
    (n * n + 1) st0 (fun q _ => h.range_ok q)

/-- Every list entry at the fixed point is transitively connected to its
particle (soundness of the consensus loop). -/
theorem stitch_sound (n : ℕ) (owner : ℕ → ℕ) (st0 : ℕ → Finset ℕ)
    (h : StitchOK n owner st0) :
    ∀ p, p < n → ∀ j ∈ stitchState n owner st0 p, Connected st0 p j := by
  unfold stitchState
  exact iterRounds_inv n owner
    (fun st => ∀ p, p < n → ∀ j ∈ st p, Connected st0 p j)
    (fun st hst => round_sound n owner st0 st h.sym hst)
    (n * n + 1) st0
    (fun p _ j hj => Relation.ReflTransGen.single hj)

/-- No particle ever lists itself. -/
theorem stitch_no_self (n : ℕ) (owner : ℕ → ℕ) (st0 : ℕ → Finset ℕ)
    (h : StitchOK n owner st0) :
    ∀ p, p < n → p ∉ stitchState n owner st0 p := by
  unfold stitchState
  exact iterRounds_inv n owner (fun st => ∀ p, p < n → p ∉ st p)
    (fun st hst => round_no_self n owner st hst)
    (n * n + 1) st0
    (fun p _ hmem => h.cross p p hmem rfl)

/-- The initial edges survive into the fixed point. -/
theorem stitch_subset (n : ℕ) (owner : ℕ → ℕ) (st0 : ℕ → Finset ℕ) (p : ℕ) :
    st0 p ⊆ stitchState n owner st0 p :=
  iterRounds_subset n owner (n * n + 1) st0 p

/-- The state returned by `stitchState` really is a fixed point of the
round on all valid particles: `n² + 1` rounds always suffice. -/
theorem stitch_fixed (n : ℕ) (owner : ℕ → ℕ) (st0 : ℕ → Finset ℕ)
    (h : StitchOK n owner st0) (p : ℕ) (hp : p < n) :
    round n owner (stitchState n owner st0) p = stitchState n owner st0 p := by
  unfold stitchState
  exact iterRounds_fixed n owner (n * n + 1) st0
    (fun q _ => h.range_ok q) (by omega) p hp

/-- Stability of the fixed point: whenever a list mentions a particle of
another rank, that particle already holds the sender and the rest of the
sender's list. -/
theorem stitch_stable (n : ℕ) (owner : ℕ → ℕ) (st0 : ℕ → Finset ℕ)
    (h : StitchOK n owner st0) (p i : ℕ) (hp : p < n) (hi : i < n)
    (hmem : p ∈ stitchState n owner st0 i) (how : owner i ≠ owner p) :
    insert i ((stitchState n owner st0 i).erase p) ⊆
      stitchState n owner st0 p := by
  intro x hx
  rw [← stitch_fixed n owner st0 h p hp]
  simp only [round, Finset.mem_union, Finset.mem_biUnion]
  right
  refine ⟨i, Finset.mem_range.mpr hi, ?_⟩
  rw [if_pos ⟨hmem, how⟩]
  exact hx

/-- Completeness of the consensus loop: transitively connected particles
end up in each other's lists at the fixed point. -/
theorem stitch_complete (n : ℕ) (owner : ℕ → ℕ) (st0 : ℕ → Finset ℕ)
    (h : StitchOK n owner st0) :
    ∀ i j, i < n → Connected st0 i j →
      i = j ∨ (j ∈ stitchState n owner st0 i ∧ i ∈ stitchState n owner st0 j) := by
  intro i j hi hconn
  have hconn2 : Relation.ReflTransGen (fun a b => b ∈ st0 a) i j := hconn
  clear hconn
  induction hconn2 with
  | refl => exact Or.inl rfl
  | @tail b c hib hbc ih =>
    have hbc2 : c ∈ st0 b := hbc
    have hbn : b < n := by
      by_contra hb
      rw [h.out_ok b (Nat.le_of_not_lt hb)] at hbc2
      exact absurd hbc2 (Finset.not_mem_empty c)
    have hcn : c < n := Finset.mem_range.mp (h.range_ok b hbc2)
    have hcb : b ∈ st0 c := h.sym b c hbc2
    have howbc : owner b ≠ owner c := h.cross b c hbc2
    have hcF : c ∈ stitchState n owner st0 b := stitch_subset n owner st0 b hbc2
    have hbF : b ∈ stitchState n owner st0 c := stitch_subset n owner st0 c hcb
    by_cases hic : i = c
    · exact Or.inl hic
    rcases ih with rfl | ⟨hbFi, hiFb⟩
    · exact Or.inr ⟨hcF, hbF⟩
    · have hS1 := stitch_stable n owner st0 h c b hcn hbn hcF howbc
      have hiFc : i ∈ stitchState n owner st0 c := by
        apply hS1
        exact Finset.mem_insert.mpr
          (Or.inr (Finset.mem_erase.mpr ⟨hic, hiFb⟩))
      by_cases howci : owner c = owner i
      · have howbi : owner b ≠ owner i := fun hbi => howbc (hbi.trans howci.symm)
        have hS2 := stitch_stable n owner st0 h i b hi hbn hiFb howbi
        have hcFi : c ∈ stitchState n owner st0 i := by
          apply hS2
          exact Finset.mem_insert.mpr
            (Or.inr (Finset.mem_erase.mpr ⟨fun hci => hic hci.symm, hcF⟩))
        exact Or.inr ⟨hcFi, hiFc⟩
      · have hS3 := stitch_stable n owner st0 h i c hi hcn hiFc howci
        have hcFi : c ∈ stitchState n owner st0 i :=
          hS3 (Finset.mem_insert.mpr (Or.inl rfl))
        exact Or.inr ⟨hcFi, hiFc⟩

/-- Membership in the extended list `insert i (list i)` is exactly
transitive connectivity to `i`. -/
theorem stitch_mem_iff (n : ℕ) (owner : ℕ → ℕ) (st0 : ℕ → Finset ℕ)
    (h : StitchOK n owner st0) (i j : ℕ) (hi : i < n) :
    j ∈ insert i (stitchState n owner st0 i) ↔ Connected st0 i j := by
  constructor
  · intro hj
    rcases Finset.mem_insert.mp hj with rfl | hj
    · exact Relation.ReflTransGen.refl
    · exact stitch_sound n owner st0 h i hi j hj
  · intro hconn
    rcases stitch_complete n owner st0 h i j hi hconn with rfl | ⟨hj, _⟩
    · exact Finset.mem_insert_self i _
    · exact Finset.mem_insert.mpr (Or.inr hj)

/-- Connected particles have the same extended list (the clique). -/
theorem stitch_K_eq (n : ℕ) (owner : ℕ → ℕ) (st0 : ℕ → Finset ℕ)
    (h : StitchOK n owner st0) (i j : ℕ) (hi : i < n) (hj : j < n)
    (hconn : Connected st0 i j) :
    insert i (stitchState n owner st0 i) =
      insert j (stitchState n owner st0 j) := by
  have hsymC : Symmetric (Connected st0) :=
    Relation.ReflTransGen.symmetric (fun a b hab => h.sym a b hab)
  ext x
  rw [stitch_mem_iff n owner st0 h i x hi, stitch_mem_iff n owner st0 h j x hj]
  constructor
  · intro hix
    exact Relation.ReflTransGen.trans (hsymC hconn) hix
  · intro hjx
    exact Relation.ReflTransGen.trans hconn hjx

/-- With contiguous ascending rank blocks, the sort order of the
connectivity lists coincides with the particle id order. -/
theorem lexLt_iff (owner : ℕ → ℕ) (hm : Monotone owner) (a b : ℕ) :
    lexLt owner a b ↔ a < b := by
  unfold lexLt
  constructor
  · rintro (hlt | ⟨-, hab⟩)
    · by_contra hab
      exact absurd hlt (not_lt.mpr (hm (Nat.le_of_not_lt hab)))
    · exact hab
  · intro hab
    rcases lt_or_eq_of_le (hm hab.le) with hlt | heq
    · exact Or.inl hlt
    · exact Or.inr ⟨heq, hab⟩

/-- The running fold of `lexFirst` keeps the smallest element seen. -/
theorem lexFold_some (owner : ℕ → ℕ) (hm : Monotone owner) :
    ∀ (l : List ℕ) (m : ℕ),
      ∃ k, l.foldl (fun acc x => match acc with
            | none => some x
            | some m2 => if lexLt owner x m2 then some x else some m2)
          (some m) = some k ∧ k ∈ m :: l ∧ ∀ x ∈ m :: l, k ≤ x := by
  intro l
  induction l with
  | nil =>
    intro m
    refine ⟨m, rfl, List.mem_cons_self m [], ?_⟩
    intro x hx
    rcases List.mem_cons.mp hx with rfl | hx
    · exact Nat.le_refl x
    · exact absurd hx (List.not_mem_nil x)
  | cons y t ih =>
    intro m
    by_cases hlt : lexLt owner y m
    · have hstep : (y :: t).foldl (fun acc x => match acc with
            | none => some x
            | some m2 => if lexLt owner x m2 then some x else some m2)
          (some m) = t.foldl (fun acc x => match acc with
            | none => some x
            | some m2 => if lexLt owner x m2 then some x else some m2)
          (some y) := by
        rw [List.foldl_cons]
        congr 1
        show (if lexLt owner y m then some y else some m) = some y
        exact if_pos hlt
      rw [hstep]
      obtain ⟨k, hk, hkm, hkle⟩ := ih y
      have hym : k ≤ m :=
        le_of_lt (lt_of_le_of_lt (hkle y (List.mem_cons_self y t))
          ((lexLt_iff owner hm y m).mp hlt))
      refine ⟨k, hk, ?_, ?_⟩
      · exact List.mem_cons.mpr (Or.inr hkm)
      · intro x hx
        rcases List.mem_cons.mp hx with rfl | hx2
        · exact hym
        · exact hkle x hx2
    · have hstep : (y :: t).foldl (fun acc x => match acc with
            | none => some x
            | some m2 => if lexLt owner x m2 then some x else some m2)
          (some m) = t.foldl (fun acc x => match acc with
            | none => some x
            | some m2 => if lexLt owner x m2 then some x else some m2)
          (some m) := by
        rw [List.foldl_cons]
        congr 1
        show (if lexLt owner y m then some y else some m) = some m
        exact if_neg hlt
      rw [hstep]
      obtain ⟨k, hk, hkm, hkle⟩ := ih m
      have hky : k ≤ y :=
        le_trans (hkle m (List.mem_cons_self m t))
          (Nat.le_of_not_lt (fun hym => hlt ((lexLt_iff owner hm y m).mpr hym)))
      refine ⟨k, hk, ?_, ?_⟩
      · rcases List.mem_cons.mp hkm with rfl | hkm2
        · exact List.mem_cons_self k _
        · exact List.mem_cons.mpr (Or.inr (List.mem_cons.mpr (Or.inr hkm2)))
      · intro x hx
        rcases List.mem_cons.mp hx with rfl | hx2
        · exact hkle x (List.mem_cons_self x t)
        · rcases List.mem_cons.mp hx2 with rfl | hx3
          · exact hky
          · exact hkle x (List.mem_cons.mpr (Or.inr hx3))

/-- The head entry of a nonempty sorted connectivity list is its minimum
(under a monotone owner map). -/
theorem lexFirst_spec (owner : ℕ → ℕ) (hm : Monotone owner) (s : Finset ℕ)
    (hne : s.Nonempty) :
    ∃ k, lexFirst owner s = some k ∧ k ∈ s ∧ ∀ x ∈ s, k ≤ x := by
  have hnil : s.sort (· ≤ ·) ≠ [] := by
    intro hempty
    have hlen : (s.sort (· ≤ ·)).length = s.card := Finset.length_sort (· ≤ ·)
    rw [hempty] at hlen
    have hpos : 0 < s.card := Finset.card_pos.mpr hne
    simp at hlen
    omega
  obtain ⟨y, t, hyt⟩ := List.exists_cons_of_ne_nil hnil
  unfold lexFirst
  rw [hyt]
  obtain ⟨k, hk, hkm, hkle⟩ := lexFold_some owner hm t y
  refine ⟨k, ?_, ?_, ?_⟩
  · rw [List.foldl_cons]
    exact hk
  · have : k ∈ s.sort (· ≤ ·) := by
      rw [hyt]
      exact hkm
    exact (Finset.mem_sort (· ≤ ·)).mp this
  · intro x hx
    have : x ∈ s.sort (· ≤ ·) := (Finset.mem_sort (· ≤ ·)).mpr hx
    rw [hyt] at this
    exact hkle x this

/-- The representative test of step 2 picks exactly the smallest particle
of each clique list. -/
theorem isRep_iff (owner : ℕ → ℕ) (hm : Monotone owner) (st : ℕ → Finset ℕ)
    (i : ℕ) :
    isRep owner st i = true ↔ ∀ j ∈ st i, i < j := by
  unfold isRep
  rcases heq : lexFirst owner (st i) with _ | m
  · constructor
    · intro _ j hj
      obtain ⟨k, hk, -, -⟩ := lexFirst_spec owner hm (st i) ⟨j, hj⟩
      rw [heq] at hk
      exact absurd hk (by simp)
    · intro _
      rfl
  · show decide (owner i ≤ owner m ∧ i < m) = true ↔ _
    rw [decide_eq_true_eq]
    have hsne : (st i).Nonempty := by
      by_contra hse
      rw [Finset.not_nonempty_iff_eq_empty] at hse
      rw [hse] at heq
      have hnone : lexFirst owner (∅ : Finset ℕ) = none := by
        unfold lexFirst
        rw [Finset.sort_empty]
        rfl
      rw [hnone] at heq
      exact absurd heq (by simp)
    obtain ⟨k, hk, hkmem, hkle⟩ := lexFirst_spec owner hm (st i) hsne
    rw [heq] at hk
    have hkm : m = k := by
      injection hk with h2
    subst hkm
    constructor
    · rintro ⟨-, him⟩ j hj
      exact lt_of_lt_of_le him (hkle j hj)
    · intro hall
      have him : i < m := hall m hkmem
      exact ⟨hm him.le, him⟩

/-- The representative of a particle is a member of its clique and is its
least member. -/
theorem repOf_spec (n : ℕ) (owner : ℕ → ℕ) (st0 : ℕ → Finset ℕ) (i : ℕ) :
    repOf n owner st0 i ∈ insert i (stitchState n owner st0 i) ∧
      ∀ x ∈ insert i (stitchState n owner st0 i), repOf n owner st0 i ≤ x := by
  unfold repOf
  exact ⟨Finset.min'_mem _ _, fun x hx => Finset.min'_le _ x hx⟩

/-- Representatives of valid particles are valid particles. -/
theorem repOf_lt (n : ℕ) (owner : ℕ → ℕ) (st0 : ℕ → Finset ℕ)
    (h : StitchOK n owner st0) (i : ℕ) (hi : i < n) :
    repOf n owner st0 i < n := by
  have hmem := (repOf_spec n owner st0 i).1
  rcases Finset.mem_insert.mp hmem with heq | hmem2
  · rw [heq]
    exact hi
  · exact Finset.mem_range.mp (stitch_range n owner st0 h i hi hmem2)

/-- Each particle is connected to its representative. -/
theorem repOf_conn (n : ℕ) (owner : ℕ → ℕ) (st0 : ℕ → Finset ℕ)
    (h : StitchOK n owner st0) (i : ℕ) (hi : i < n) :
    Connected st0 i (repOf n owner st0 i) :=
  (stitch_mem_iff n owner st0 h i _ hi).mp (repOf_spec n owner st0 i).1

/-- Equal cliques have equal representatives. -/
theorem repOf_eq_of_K_eq (n : ℕ) (owner : ℕ → ℕ) (st0 : ℕ → Finset ℕ)
    (i j : ℕ)
    (hK : insert i (stitchState n owner st0 i) =
      insert j (stitchState n owner st0 j)) :
    repOf n owner st0 i = repOf n owner st0 j := by
  have h1 := repOf_spec n owner st0 i
  have h2 := repOf_spec n owner st0 j
  apply le_antisymm
  · apply h1.2
    rw [hK]
    exact h2.1
  · apply h2.2
    rw [← hK]
    exact h1.1

/-- Connected particles share their representative. -/
theorem repOf_eq_of_conn (n : ℕ) (owner : ℕ → ℕ) (st0 : ℕ → Finset ℕ)
    (h : StitchOK n owner st0) (i j : ℕ) (hi : i < n) (hj : j < n)
    (hconn : Connected st0 i j) :
    repOf n owner st0 i = repOf n owner st0 j :=
  repOf_eq_of_K_eq n owner st0 i j (stitch_K_eq n owner st0 h i j hi hj hconn)

/-- The representative of any particle passes the representative test. -/
theorem isRep_repOf (n : ℕ) (owner : ℕ → ℕ) (st0 : ℕ → Finset ℕ)
    (h : StitchOK n owner st0) (i : ℕ) (hi : i < n) :
    isRep owner (stitchState n owner st0) (repOf n owner st0 i) = true := by
  rw [isRep_iff owner h.mono]
  intro j hj
  have hrn : repOf n owner st0 i < n := repOf_lt n owner st0 h i hi
  have hK : insert i (stitchState n owner st0 i) =
      insert (repOf n owner st0 i)
        (stitchState n owner st0 (repOf n owner st0 i)) :=
    stitch_K_eq n owner st0 h i _ hi hrn (repOf_conn n owner st0 h i hi)
  have hjKi : j ∈ insert i (stitchState n owner st0 i) := by
    rw [hK]
    exact Finset.mem_insert.mpr (Or.inr hj)
  have hle : repOf n owner st0 i ≤ j := (repOf_spec n owner st0 i).2 j hjKi
  have hne : repOf n owner st0 i ≠ j := by
    intro hrj
    rw [← hrj] at hj
    exact stitch_no_self n owner st0 h _ hrn hj
  exact lt_of_le_of_ne hle hne

/-- Any representative connected to `i` is the representative of `i`. -/
theorem rep_unique (n : ℕ) (owner : ℕ → ℕ) (st0 : ℕ → Finset ℕ)
    (h : StitchOK n owner st0) (i r : ℕ) (hi : i < n) (hrn : r < n)
    (hrep : isRep owner (stitchState n owner st0) r = true)
    (hconn : Connected st0 i r) :
    r = repOf n owner st0 i := by
  have hK : insert i (stitchState n owner st0 i) =
      insert r (stitchState n owner st0 r) :=
    stitch_K_eq n owner st0 h i r hi hrn hconn
  have hmin : ∀ x ∈ insert r (stitchState n owner st0 r), r ≤ x := by
    intro x hx
    rcases Finset.mem_insert.mp hx with rfl | hx2
    · exact Nat.le_refl x
    · exact le_of_lt ((isRep_iff owner h.mono _ r).mp hrep x hx2)
  have h1 : r ≤ repOf n owner st0 i := by
    apply hmin
    rw [← hK]
    exact (repOf_spec n owner st0 i).1
  have h2 : repOf n owner st0 i ≤ r := by
    apply (repOf_spec n owner st0 i).2
    rw [hK]
    exact Finset.mem_insert_self r _
  exact le_antisymm h1 h2

/-- A representative represents itself. -/
theorem repOf_of_rep (n : ℕ) (owner : ℕ → ℕ) (st0 : ℕ → Finset ℕ)
    (h : StitchOK n owner st0) (r : ℕ) (hr : r < n)
    (hrep : isRep owner (stitchState n owner st0) r = true) :
    repOf n owner st0 r = r :=
  (rep_unique n owner st0 h r r hr hr hrep Relation.ReflTransGen.refl).symm

/-- A particle is notified by rank `r` exactly when `r` is the
representative of its clique. -/
theorem notify_pred_iff (n : ℕ) (owner : ℕ → ℕ) (st0 : ℕ → Finset ℕ)
    (h : StitchOK n owner st0) (j r : ℕ) (hj : j < n) (hrn : r < n) :
    ((isRep owner (stitchState n owner st0) r &&
        (decide (j = r) || decide (j ∈ stitchState n owner st0 r))) = true) ↔
      r = repOf n owner st0 j := by
  have hsymC : Symmetric (Connected st0) :=
    Relation.ReflTransGen.symmetric (fun a b hab => h.sym a b hab)
  rw [Bool.and_eq_true, Bool.or_eq_true, decide_eq_true_eq, decide_eq_true_eq]
  constructor
  · rintro ⟨hrep, hjr⟩
    have hjK : j ∈ insert r (stitchState n owner st0 r) := by
      rcases hjr with heq | hjm
      · rw [heq]
        exact Finset.mem_insert_self r _
      · exact Finset.mem_insert.mpr (Or.inr hjm)
    have hconn : Connected st0 r j := (stitch_mem_iff n owner st0 h r j hrn).mp hjK
    exact rep_unique n owner st0 h j r hj hrn hrep (hsymC hconn)
  · intro hr
    subst hr
    refine ⟨isRep_repOf n owner st0 h j hj, ?_⟩
    have hK : insert j (stitchState n owner st0 j) =
        insert (repOf n owner st0 j)
          (stitchState n owner st0 (repOf n owner st0 j)) :=
      stitch_K_eq n owner st0 h j _ hj (repOf_lt n owner st0 h j hj)
        (repOf_conn n owner st0 h j hj)
    have hjK : j ∈ insert (repOf n owner st0 j)
        (stitchState n owner st0 (repOf n owner st0 j)) := by
      rw [← hK]
      exact Finset.mem_insert_self j _
    rcases Finset.mem_insert.mp hjK with heq | hmem
    · exact Or.inl heq
    · exact Or.inr hmem

/-- Exactly one representative notifies each valid particle: its own. -/
theorem notifySet_eq (n : ℕ) (owner : ℕ → ℕ) (st0 : ℕ → Finset ℕ)
    (h : StitchOK n owner st0) (j : ℕ) (hj : j < n) :
    notifySet n owner (stitchState n owner st0) j = [repOf n owner st0 j] := by
  unfold notifySet
  have hcongr : ∀ r ∈ List.range n,
      (isRep owner (stitchState n owner st0) r &&
        (decide (j = r) || decide (j ∈ stitchState n owner st0 r))) =
      decide (r = repOf n owner st0 j) := by
    intro r hr
    have hrn : r < n := List.mem_range.mp hr
    have hiff := notify_pred_iff n owner st0 h j r hj hrn
    rcases Bool.eq_false_or_eq_true (isRep owner (stitchState n owner st0) r &&
        (decide (j = r) || decide (j ∈ stitchState n owner st0 r))) with hb | hb
    · rw [hb]
      symm
      rw [decide_eq_true_eq]
      exact hiff.mp hb
    · rw [hb]
      symm
      rw [decide_eq_false_iff_not]
      intro hcase
      have hbad := hiff.mpr hcase
      rw [hb] at hbad
      exact absurd hbad (by simp)
  rw [List.filter_congr hcongr, List.filter_eq,
    List.count_eq_one_of_mem (List.nodup_range n)
      (List.mem_range.mpr (repOf_lt n owner st0 h j hj))]
  rfl

/-- The stitching result for a valid particle: the dense number of the
representative of its clique. -/
theorem stitch_result (n : ℕ) (owner : ℕ → ℕ) (st0 : ℕ → Finset ℕ)
    (h : StitchOK n owner st0) (j : ℕ) (hj : j < n) :
    perform_distributed_stitching n owner st0 j =
      some (cliqueNum n owner (stitchState n owner st0)
        (repOf n owner st0 j)) := by
  show (notifySet n owner (stitchState n owner st0) j).head?.map
      (cliqueNum n owner (stitchState n owner st0)) = _
  rw [notifySet_eq n owner st0 h j hj]
  rfl

/-- Under a monotone owner map the dense clique number of `i` counts the
representatives smaller than `i`. -/
theorem cliqueNum_eq (n : ℕ) (owner : ℕ → ℕ) (st0 : ℕ → Finset ℕ)
    (hm : Monotone owner) (i : ℕ) :
    cliqueNum n owner (stitchState n owner st0) i =
      ((Reps n owner st0).filter (fun r => r < i)).card := by
  unfold cliqueNum Reps
  rw [Finset.filter_filter]
  congr 1
  apply Finset.filter_congr
  intro r _
  rw [lexLt_iff owner hm]

/-- The count of smaller representatives is below the total count. -/
theorem cliqueNum_lt_card (n : ℕ) (owner : ℕ → ℕ) (st0 : ℕ → Finset ℕ)
    (r : ℕ) (hr : r ∈ Reps n owner st0) :
    ((Reps n owner st0).filter (fun x => x < r)).card <
      (Reps n owner st0).card := by
  have hsub : (Reps n owner st0).filter (fun x => x < r) ⊆
      (Reps n owner st0).erase r := by
    intro x hx
    rw [Finset.mem_filter] at hx
    rw [Finset.mem_erase]
    exact ⟨Nat.ne_of_lt hx.2, hx.1⟩
  calc ((Reps n owner st0).filter (fun x => x < r)).card
      ≤ ((Reps n owner st0).erase r).card := Finset.card_le_card hsub
    _ < (Reps n owner st0).card := Finset.card_erase_lt_of_mem hr

/-- Counting smaller representatives is strictly monotone on
representatives. -/
theorem cliqueNum_strict (n : ℕ) (owner : ℕ → ℕ) (st0 : ℕ → Finset ℕ)
    (r r2 : ℕ) (hr : r ∈ Reps n owner st0) (hlt : r < r2) :
    ((Reps n owner st0).filter (fun x => x < r)).card <
      ((Reps n owner st0).filter (fun x => x < r2)).card := by
  apply Finset.card_lt_card
  apply HasSubset.Subset.ssubset_of_ne
  · intro x hx
    rw [Finset.mem_filter] at hx
    rw [Finset.mem_filter]
    exact ⟨hx.1, hx.2.trans hlt⟩
  · intro heq
    have h1 : r ∈ (Reps n owner st0).filter (fun x => x < r2) :=
      Finset.mem_filter.mpr ⟨hr, hlt⟩
    rw [← heq] at h1
    exact absurd (Finset.mem_filter.mp h1).2 (lt_irrefl r)

/-- Counting smaller representatives is injective on representatives. -/
theorem cliqueNum_injOn (n : ℕ) (owner : ℕ → ℕ) (st0 : ℕ → Finset ℕ) :
    Set.InjOn (fun r => ((Reps n owner st0).filter (fun x => x < r)).card)
      (Reps n owner st0) := by
  intro a ha b hb hab
  by_contra hne
  rcases Nat.lt_or_ge a b with hlt | hge
  · exact absurd hab
      (Nat.ne_of_lt (cliqueNum_strict n owner st0 a b (Finset.mem_coe.mp ha) hlt))
  · have hlt : b < a := lt_of_le_of_ne hge (Ne.symm hne)
    exact absurd hab.symm
      (Nat.ne_of_lt (cliqueNum_strict n owner st0 b a (Finset.mem_coe.mp hb) hlt))

/-- Every number below the clique count is the number of some
representative. -/
theorem cliqueNum_surj (n : ℕ) (owner : ℕ → ℕ) (st0 : ℕ → Finset ℕ)
    (c : ℕ) (hc : c < (Reps n owner st0).card) :
    ∃ r ∈ Reps n owner st0,
      ((Reps n owner st0).filter (fun x => x < r)).card = c := by
  have himg : (Reps n owner st0).image
      (fun r => ((Reps n owner st0).filter (fun x => x < r)).card) ⊆
      Finset.range ((Reps n owner st0).card) := by
    intro y hy
    rw [Finset.mem_image] at hy
    obtain ⟨r, hr, hyr⟩ := hy
    rw [Finset.mem_range, ← hyr]
    exact cliqueNum_lt_card n owner st0 r hr
  have hcard : ((Reps n owner st0).image
      (fun r => ((Reps n owner st0).filter (fun x => x < r)).card)).card =
      (Finset.range ((Reps n owner st0).card)).card := by
    rw [Finset.card_image_of_injOn (cliqueNum_injOn n owner st0),
      Finset.card_range]
  have heq : (Reps n owner st0).image
      (fun r => ((Reps n owner st0).filter (fun x => x < r)).card) =
      Finset.range ((Reps n owner st0).card) :=
    Finset.eq_of_subset_of_card_le himg (le_of_eq hcard.symm)
  have hmem : c ∈ (Reps n owner st0).image
      (fun r => ((Reps n owner st0).filter (fun x => x < r)).card) := by
    rw [heq, Finset.mem_range]
    exact hc
  rw [Finset.mem_image] at hmem
  obtain ⟨r, hr, hrc⟩ := hmem
  exact ⟨r, hr, hrc⟩

/-- The clique count agrees with the representative count. -/
theorem nCliques_eq (n : ℕ) (owner : ℕ → ℕ) (st0 : ℕ → Finset ℕ) :
    nCliques n owner st0 = (Reps n owner st0).card := rfl

/-- Claim C1: on well-formed connectivity input, the distributed stitching
gives every provisional particle id a clique id; two valid particles get
the same clique id exactly when they are transitively connected by the
initial connectivity edges, every assigned id lies below the number of
cliques, and every id in 0..N-1 is assigned to some particle. -/
theorem perform_distributed_stitching_correct (n : ℕ) (owner : ℕ → ℕ)
    (st0 : ℕ → Finset ℕ) (h : StitchOK n owner st0) :
    (∀ i j, i < n → j < n →
      (perform_distributed_stitching n owner st0 i =
          perform_distributed_stitching n owner st0 j ↔
        Connected st0 i j)) ∧
    (∀ i, i < n → ∃ c, c < nCliques n owner st0 ∧
      perform_distributed_stitching n owner st0 i = some c) ∧
    (∀ c, c < nCliques n owner st0 → ∃ i, i < n ∧
      perform_distributed_stitching n owner st0 i = some c) := by
  have hsymC : Symmetric (Connected st0) :=
    Relation.ReflTransGen.symmetric (fun a b hab => h.sym a b hab)
  refine ⟨?_, ?_, ?_⟩
  · intro i j hi hj
    rw [stitch_result n owner st0 h i hi, stitch_result n owner st0 h j hj,
      cliqueNum_eq n owner st0 h.mono, cliqueNum_eq n owner st0 h.mono]
    constructor
    · intro heq
      have hcards := Option.some.inj heq
      have hri : repOf n owner st0 i ∈ Reps n owner st0 :=
        Finset.mem_filter.mpr
          ⟨Finset.mem_range.mpr (repOf_lt n owner st0 h i hi),
            isRep_repOf n owner st0 h i hi⟩
      have hrj : repOf n owner st0 j ∈ Reps n owner st0 :=
        Finset.mem_filter.mpr
          ⟨Finset.mem_range.mpr (repOf_lt n owner st0 h j hj),
            isRep_repOf n owner st0 h j hj⟩
      have hrr : repOf n owner st0 i = repOf n owner st0 j :=
        cliqueNum_injOn n owner st0 (Finset.mem_coe.mpr hri)
          (Finset.mem_coe.mpr hrj) hcards
      have h1 : Connected st0 i (repOf n owner st0 i) :=
        repOf_conn n owner st0 h i hi
      have h2 : Connected st0 j (repOf n owner st0 j) :=
        repOf_conn n owner st0 h j hj
      rw [hrr] at h1
      exact Relation.ReflTransGen.trans h1 (hsymC h2)
    · intro hconn
      rw [repOf_eq_of_conn n owner st0 h i j hi hj hconn]
  · intro i hi
    refine ⟨cliqueNum n owner (stitchState n owner st0) (repOf n owner st0 i),
      ?_, stitch_result n owner st0 h i hi⟩
    rw [cliqueNum_eq n owner st0 h.mono, nCliques_eq]
    exact cliqueNum_lt_card n owner st0 _
      (Finset.mem_filter.mpr
        ⟨Finset.mem_range.mpr (repOf_lt n owner st0 h i hi),
          isRep_repOf n owner st0 h i hi⟩)
  · intro c hc
    rw [nCliques_eq] at hc
    obtain ⟨r, hrR, hrc⟩ := cliqueNum_surj n owner st0 c hc
    have hrmem := Finset.mem_filter.mp hrR
    have hrn : r < n := Finset.mem_range.mp hrmem.1
    refine ⟨r, hrn, ?_⟩
    rw [stitch_result n owner st0 h r hrn,
      repOf_of_rep n owner st0 h r hrn hrmem.2,
      cliqueNum_eq n owner st0 h.mono, hrc]

/-- Witness for the stitching claim: two particles on two ranks linked by
one symmetric cross-rank edge satisfy the well-formedness hypotheses, so
the correctness theorem applies to them. -/
theorem perform_distributed_stitching_correct_w :
    StitchOK 2 (fun i => i) wSt0 ∧
    ((∀ i j, i < 2 → j < 2 →
      (perform_distributed_stitching 2 (fun i => i) wSt0 i =
          perform_distributed_stitching 2 (fun i => i) wSt0 j ↔
        Connected wSt0 i j)) ∧
    (∀ i, i < 2 → ∃ c, c < nCliques 2 (fun i => i) wSt0 ∧
      perform_distributed_stitching 2 (fun i => i) wSt0 i = some c) ∧
    (∀ c, c < nCliques 2 (fun i => i) wSt0 → ∃ i, i < 2 ∧
      perform_distributed_stitching 2 (fun i => i) wSt0 i = some c)) := by
  have hok : StitchOK 2 (fun i => i) wSt0 := by
    constructor
    · intro i
      unfold wSt0
      by_cases h0 : i = 0
      · subst h0
        decide
      · by_cases h1 : i = 1
        · subst h1
          decide
        · rw [if_neg h0, if_neg h1]
          exact Finset.empty_subset _
    · intro i hi
      unfold wSt0
      rw [if_neg (by omega), if_neg (by omega)]
    · intro i j hj
      unfold wSt0 at hj
      by_cases h0 : i = 0
      · subst h0
        rw [if_pos rfl] at hj
        have hj1 : j = 1 := by simpa using hj
        subst hj1
        decide
      · by_cases h1 : i = 1
        · subst h1
          rw [if_neg (by omega), if_pos rfl] at hj
          have hj0 : j = 0 := by simpa using hj
          subst hj0
          decide
        · rw [if_neg h0, if_neg h1] at hj
          exact absurd hj (Finset.not_mem_empty j)
    · intro i j hj
      unfold wSt0 at hj
      by_cases h0 : i = 0
      · subst h0
        rw [if_pos rfl] at hj
        have hj1 : j = 1 := by simpa using hj
        subst hj1
        decide
      · by_cases h1 : i = 1
        · subst h1
          rw [if_neg (by omega), if_pos rfl] at hj
          have hj0 : j = 0 := by simpa using hj
          subst hj0
          decide
        · rw [if_neg h0, if_neg h1] at hj
          exact absurd hj (Finset.not_mem_empty j)
    · exact fun a b hab => hab
  exact ⟨hok, perform_distributed_stitching_correct 2 (fun i => i) wSt0 hok⟩

end GrainTracker
